import Mathlib

/-!
# Verification of the technical-indicator engine

Shallow embedding of `src/TechnicalAnalysisOfStock/utils/technical_indicators.py`
(and the pipeline in `utils/download_data.py`).  The pandas/numpy float semantics
relevant to the indicator code are modelled exactly by the type `FVal`:
an IEEE-style value that is either NaN, +infinity, -infinity, or an exact
rational (rounding is idealised away; every claim proved below is about
definedness, identity, or order, none of which depend on rounding).
A pandas `Series` becomes a `List FVal`, positionally indexed.
-/

set_option autoImplicit false
set_option linter.unnecessarySeqFocus false
set_option linter.unusedVariables false

/-- A pandas/numpy scalar: NaN, +inf, -inf, or a finite (exact rational) value. -/
inductive FVal where
  | nan : FVal
  | pinf : FVal
  | ninf : FVal
  | fin : ℚ → FVal
deriving DecidableEq

namespace FVal

/-- IEEE addition (NaN-propagating, `+inf + -inf = NaN`). -/
def add : FVal → FVal → FVal
  | nan, _ => nan
  | _, nan => nan
  | pinf, ninf => nan
  | ninf, pinf => nan
  | pinf, _ => pinf
  | _, pinf => pinf
  | ninf, _ => ninf
  | _, ninf => ninf
  | fin a, fin b => fin (a + b)

/-- IEEE negation. -/
def neg : FVal → FVal
  | nan => nan
  | pinf => ninf
  | ninf => pinf
  | fin a => fin (-a)

/-- IEEE subtraction. -/
def sub (x y : FVal) : FVal := add x (neg y)

/-- IEEE multiplication (`inf * 0 = NaN`). -/
def mul : FVal → FVal → FVal
  | nan, _ => nan
  | _, nan => nan
  | pinf, pinf => pinf
  | pinf, ninf => ninf
  | ninf, pinf => ninf
  | ninf, ninf => pinf
  | pinf, fin b => if b = 0 then nan else if 0 < b then pinf else ninf
  | fin a, pinf => if a = 0 then nan else if 0 < a then pinf else ninf
  | ninf, fin b => if b = 0 then nan else if 0 < b then ninf else pinf
  | fin a, ninf => if a = 0 then nan else if 0 < a then ninf else pinf
  | fin a, fin b => fin (a * b)

/-- IEEE division.  A zero denominator is the `+0.0` produced by the sums and
rolling means of the indicator code (no `-0.0` ever arises there), so
`q / 0` is `+inf` for `q > 0`, `-inf` for `q < 0`, and NaN for `0 / 0`. -/
def div : FVal → FVal → FVal
  | nan, _ => nan
  | _, nan => nan
  | pinf, pinf => nan
  | pinf, ninf => nan
  | ninf, pinf => nan
  | ninf, ninf => nan
  | pinf, fin b => if 0 ≤ b then pinf else ninf
  | ninf, fin b => if 0 ≤ b then ninf else pinf
  | fin _, pinf => fin 0
  | fin _, ninf => fin 0
  | fin a, fin b =>
      if b = 0 then (if a = 0 then nan else if 0 < a then pinf else ninf)
      else fin (a / b)

/-- IEEE absolute value. -/
def fabs : FVal → FVal
  | nan => nan
  | pinf => pinf
  | ninf => pinf
  | fin a => fin |a|

/-- IEEE maximum of two non-missing values (used pointwise by rolling max,
where NaN windows are handled separately). -/
def fmax : FVal → FVal → FVal
  | nan, _ => nan
  | _, nan => nan
  | pinf, _ => pinf
  | _, pinf => pinf
  | ninf, y => y
  | x, ninf => x
  | fin a, fin b => fin (max a b)

/-- IEEE minimum, dual to `fmax`. -/
def fmin : FVal → FVal → FVal
  | nan, _ => nan
  | _, nan => nan
  | ninf, _ => ninf
  | _, ninf => ninf
  | pinf, y => y
  | x, pinf => x
  | fin a, fin b => fin (min a b)

/-- IEEE strict less-than: any comparison with NaN is `false`. -/
def flt : FVal → FVal → Bool
  | nan, _ => false
  | _, nan => false
  | pinf, _ => false
  | _, pinf => true
  | ninf, ninf => false
  | ninf, _ => true
  | _, ninf => false
  | fin a, fin b => decide (a < b)

/-- IEEE strict greater-than: any comparison with NaN is `false`. -/
def fgt (x y : FVal) : Bool := flt y x

/-- Is this value the NaN sentinel ("undefined")? -/
def isNan : FVal → Bool
  | nan => true
  | _ => false

theorem isNan_iff (x : FVal) : isNan x = true ↔ x = nan := by
  cases x <;> simp [isNan]

theorem add_nan_left (y : FVal) : add nan y = nan := by cases y <;> rfl

theorem add_nan_right (x : FVal) : add x nan = nan := by cases x <;> rfl

theorem sub_nan_left (y : FVal) : sub nan y = nan := by
  cases y <;> rfl

theorem sub_nan_right (x : FVal) : sub x nan = nan := by cases x <;> rfl

theorem mul_nan_left (y : FVal) : mul nan y = nan := by cases y <;> rfl

theorem mul_nan_right (x : FVal) : mul x nan = nan := by cases x <;> rfl

theorem div_nan_left (y : FVal) : div nan y = nan := by cases y <;> rfl

theorem div_nan_right (x : FVal) : div x nan = nan := by cases x <;> rfl

theorem add_fin_fin (a b : ℚ) : add (fin a) (fin b) = fin (a + b) := rfl

theorem sub_fin_fin (a b : ℚ) : sub (fin a) (fin b) = fin (a - b) := by
  simp [sub, add, neg, sub_eq_add_neg]

theorem mul_fin_fin (a b : ℚ) : mul (fin a) (fin b) = fin (a * b) := rfl

theorem div_fin_fin (a b : ℚ) (hb : b ≠ 0) : div (fin a) (fin b) = fin (a / b) := by
  simp [div, hb]

theorem div_fin_zero_pos (a : ℚ) (ha : 0 < a) : div (fin a) (fin 0) = pinf := by
  simp [div, ha, ha.ne.symm]

theorem div_fin_zero_zero : div (fin 0) (fin 0) = nan := by simp [div]

theorem neg_add (x y : FVal) : neg (add x y) = add (neg x) (neg y) := by
  cases x <;> cases y <;> simp [add, neg] <;> ring

theorem neg_involutive (x : FVal) : neg (neg x) = x := by
  cases x <;> simp [neg]

theorem isNan_neg (x : FVal) : isNan (neg x) = isNan x := by
  cases x <;> rfl

theorem fabs_nan : fabs nan = nan := rfl

end FVal

open FVal

/-! ## Series operations (pandas `Series` = `List FVal`)

`getD i FVal.nan` is positional access; all lemmas are phrased through it. -/

/-- `s.diff()`: first element NaN, then `s[i] - s[i-1]`. -/
def diff (xs : List FVal) : List FVal :=
  match xs with
  | [] => []
  | _ :: rest => FVal.nan :: List.zipWith FVal.sub rest xs

/-- `s.shift()`: first element NaN, then `s[i-1]`. -/
def shift (xs : List FVal) : List FVal :=
  match xs with
  | [] => []
  | _ :: _ => FVal.nan :: xs.dropLast

/-- `s.cumsum()` with pandas default `skipna=True`: NaN entries stay NaN but do
not poison the running total. -/
def cumsumAux (acc : FVal) : List FVal → List FVal
  | [] => []
  | x :: rest =>
      if FVal.isNan x then FVal.nan :: cumsumAux acc rest
      else FVal.add acc x :: cumsumAux (FVal.add acc x) rest

/-- `s.cumsum()`. -/
def cumsum (xs : List FVal) : List FVal := cumsumAux (FVal.fin 0) xs

/-- The trailing window of length `w` ending at position `i` (pandas
`rolling(window=w)` at row `i`, for `w ≤ i+1`). -/
def windowSlice (xs : List FVal) (w i : ℕ) : List FVal :=
  (xs.take (i + 1)).drop (i + 1 - w)

/-- `s.rolling(window=w).AGG()`: NaN during the warm-up (`i + 1 < w`),
otherwise the aggregator applied to the trailing window.  With pandas'
default `min_periods = w`, a NaN inside the window makes the output NaN;
each aggregator below checks this itself. -/
def rollingOp (agg : List FVal → FVal) (w : ℕ) (xs : List FVal) : List FVal :=
  (List.range xs.length).map (fun i =>
    if i + 1 < w then FVal.nan else agg (windowSlice xs w i))

/-- Sum of a window. -/
def sumF (l : List FVal) : FVal := l.foldr FVal.add (FVal.fin 0)

/-- Mean aggregator of a full window of width `w`. -/
def meanAgg (w : ℕ) (l : List FVal) : FVal :=
  if l.any FVal.isNan then FVal.nan else FVal.div (sumF l) (FVal.fin w)

/-- `s.rolling(window=w).mean()`. -/
def rollingMean (w : ℕ) (xs : List FVal) : List FVal := rollingOp (meanAgg w) w xs

/-- Max aggregator of a full window. -/
def maxAgg (l : List FVal) : FVal :=
  if l.any FVal.isNan then FVal.nan else l.foldr FVal.fmax FVal.ninf

/-- Min aggregator of a full window. -/
def minAgg (l : List FVal) : FVal :=
  if l.any FVal.isNan then FVal.nan else l.foldr FVal.fmin FVal.pinf

/-- `s.rolling(window=w).max()`. -/
def rollingMax (w : ℕ) (xs : List FVal) : List FVal := rollingOp maxAgg w xs

/-- `s.rolling(window=w).min()`. -/
def rollingMin (w : ℕ) (xs : List FVal) : List FVal := rollingOp minAgg w xs

/-- Row-wise maximum with pandas' default `skipna=True`
(`pd.concat([...], axis=1).max(axis=1)`): NaN entries are dropped; a row of
only NaNs is NaN. -/
def maxSkipna (l : List FVal) : FVal :=
  match l.filter (fun x => !FVal.isNan x) with
  | [] => FVal.nan
  | y :: ys => ys.foldl FVal.fmax y

/-- Approximate square root on ℚ (exact on perfect squares).  The source
computes a floating-point square root; every theorem below relies only on
the NaN-ness (and sign) of standard-deviation values, never on the digits
of a square root, so this stand-in is exact wherever it is used. -/
def sqrtQ (q : ℚ) : ℚ := (Nat.sqrt q.num.toNat : ℚ) / (Nat.sqrt q.den : ℚ)

/-- IEEE square root: NaN on NaN and on negatives. -/
def sqrtF : FVal → FVal
  | FVal.nan => FVal.nan
  | FVal.pinf => FVal.pinf
  | FVal.ninf => FVal.nan
  | FVal.fin q => if q < 0 then FVal.nan else FVal.fin (sqrtQ q)

/-- Sample standard-deviation aggregator of a full window of width `w`
(pandas `rolling(w).std()`, default `ddof = 1`): `sqrt(Σ (x - mean)² / (w-1))`.
For `w = 1` the divisor is 0, giving `0/0 = NaN`. -/
def stdAgg (w : ℕ) (l : List FVal) : FVal :=
  if l.any FVal.isNan then FVal.nan
  else
    let m := FVal.div (sumF l) (FVal.fin w)
    let sq := sumF (l.map (fun x => FVal.mul (FVal.sub x m) (FVal.sub x m)))
    sqrtF (FVal.div sq (FVal.fin ((w - 1 : ℕ) : ℚ)))

/-- `s.rolling(window=w).std()`. -/
def rollingStd (w : ℕ) (xs : List FVal) : List FVal := rollingOp (stdAgg w) w xs

/-- `s.ewm(span, adjust=False).mean()` state machine (pandas `ignore_na=False`
semantics: a NaN emits the carried average and decays its weight).
State: the current weighted average (if a valid value has been seen) and its
weight `w`; at each valid value `v` the new average is
`(w·(1-α)·avg + α·v) / (w·(1-α) + α)`. -/
def ewmAux (a : ℚ) : Option FVal → ℚ → List FVal → List FVal
  | _, _, [] => []
  | none, w, x :: rest =>
      if FVal.isNan x then FVal.nan :: ewmAux a none w rest
      else x :: ewmAux a (some x) 1 rest
  | some p, w, x :: rest =>
      if FVal.isNan x then p :: ewmAux a (some p) (w * (1 - a)) rest
      else
        let ow := w * (1 - a)
        let y := FVal.div (FVal.add (FVal.mul (FVal.fin ow) p) (FVal.mul (FVal.fin a) x))
          (FVal.fin (ow + a))
        y :: ewmAux a (some y) 1 rest

/-! ## The indicator functions of `technical_indicators.py` -/

/-- `ema(prices, span) = prices.ewm(span=span, adjust=False).mean()`,
with smoothing factor `α = 2 / (span + 1)`. -/
def ema (prices : List FVal) (span : ℕ) : List FVal :=
  ewmAux (2 / ((span : ℚ) + 1)) none 1 prices

/-- `sma(prices, window) = prices.rolling(window=window).mean()`. -/
def sma (prices : List FVal) (window : ℕ) : List FVal :=
  rollingMean window prices

/-- `vwap`: `(prices["Close"] * prices["Volume"]).cumsum() / prices["Volume"].cumsum()`,
on the extracted Close and Volume columns. -/
def vwap (close volume : List FVal) : List FVal :=
  List.zipWith FVal.div (cumsum (List.zipWith FVal.mul close volume)) (cumsum volume)

/-- `bollinger_bands(prices, window, num_std)`: rolling mean, rolling sample
std, and `sma ± num_std * std`.  Returns `(sma_line, upper_band, lower_band)`. -/
def bollinger_bands (prices : List FVal) (window : ℕ) (num_std : ℕ) :
    List FVal × List FVal × List FVal :=
  let sma_line := rollingMean window prices
  let std := rollingStd window prices
  let upper_band := List.zipWith (fun s d => FVal.add s (FVal.mul (FVal.fin num_std) d)) sma_line std
  let lower_band := List.zipWith (fun s d => FVal.sub s (FVal.mul (FVal.fin num_std) d)) sma_line std
  (sma_line, upper_band, lower_band)

/-- `delta.clip(lower=0)`. -/
def clipLower0 : FVal → FVal
  | FVal.nan => FVal.nan
  | FVal.pinf => FVal.pinf
  | FVal.ninf => FVal.fin 0
  | FVal.fin a => FVal.fin (max a 0)

/-- `delta.clip(upper=0)`. -/
def clipUpper0 : FVal → FVal
  | FVal.nan => FVal.nan
  | FVal.pinf => FVal.fin 0
  | FVal.ninf => FVal.ninf
  | FVal.fin a => FVal.fin (min a 0)

/-- The average-gain series inside `rsi`:
`gain = delta.clip(lower=0)` then `gain.rolling(period).mean()`. -/
def avgGain (prices : List FVal) (period : ℕ) : List FVal :=
  rollingMean period ((diff prices).map clipLower0)

/-- The average-loss series inside `rsi`:
`loss = -delta.clip(upper=0)` then `loss.rolling(period).mean()`. -/
def avgLoss (prices : List FVal) (period : ℕ) : List FVal :=
  rollingMean period ((diff prices).map (fun d => FVal.neg (clipUpper0 d)))

/-- `rsi(prices, period)`: `rs = avg_gain / avg_loss`,
`rsi_line = 100 - (100 / (1 + rs))`. -/
def rsi (prices : List FVal) (period : ℕ) : List FVal :=
  let rs := List.zipWith FVal.div (avgGain prices period) (avgLoss prices period)
  rs.map (fun r => FVal.sub (FVal.fin 100) (FVal.div (FVal.fin 100) (FVal.add (FVal.fin 1) r)))

/-! ## Positional access helpers -/

/-- Positional access into a series; out-of-range reads give the NaN sentinel. -/
def atF (xs : List FVal) (i : ℕ) : FVal := xs.getD i FVal.nan

theorem atF_eq_getElem (xs : List FVal) (i : ℕ) (h : i < xs.length) :
    atF xs i = xs[i] := by
  simp [atF, List.getD_eq_getElem?_getD, List.getElem?_eq_getElem h]

theorem atF_mem (xs : List FVal) (i : ℕ) (h : i < xs.length) : atF xs i ∈ xs := by
  rw [atF_eq_getElem xs i h]
  exact List.getElem_mem h

theorem atF_zipWith (f : FVal → FVal → FVal) (as bs : List FVal) (i : ℕ)
    (h1 : i < as.length) (h2 : i < bs.length) :
    atF (List.zipWith f as bs) i = f (atF as i) (atF bs i) := by
  simp [atF, List.getD_eq_getElem?_getD, List.getElem?_zipWith,
    List.getElem?_eq_getElem h1, List.getElem?_eq_getElem h2]

theorem atF_map (f : FVal → FVal) (xs : List FVal) (i : ℕ) (h : i < xs.length) :
    atF (xs.map f) i = f (atF xs i) := by
  simp [atF, List.getD_eq_getElem?_getD, List.getElem?_map, List.getElem?_eq_getElem h]

theorem length_rollingOp (agg : List FVal → FVal) (w : ℕ) (xs : List FVal) :
    (rollingOp agg w xs).length = xs.length := by
  simp [rollingOp]

theorem atF_rollingOp (agg : List FVal → FVal) (w : ℕ) (xs : List FVal) (i : ℕ)
    (h : i < xs.length) :
    atF (rollingOp agg w xs) i =
      if i + 1 < w then FVal.nan else agg (windowSlice xs w i) := by
  simp [rollingOp, atF, List.getD_eq_getElem?_getD, List.getElem?_map,
    List.getElem?_range h]

theorem windowSlice_map (f : FVal → FVal) (xs : List FVal) (w i : ℕ) :
    windowSlice (xs.map f) w i = (windowSlice xs w i).map f := by
  simp [windowSlice, List.map_take, List.map_drop]

theorem length_windowSlice (xs : List FVal) (w i : ℕ) (h : i < xs.length)
    (hw : w ≤ i + 1) : (windowSlice xs w i).length = w := by
  simp only [windowSlice, List.length_drop, List.length_take]
  omega

theorem atF_windowSlice (xs : List FVal) (w i k : ℕ) (h : i < xs.length)
    (hw : w ≤ i + 1) (hk : k < w) :
    atF (windowSlice xs w i) k = atF xs (i + 1 - w + k) := by
  have hlt : i + 1 - w + k < i + 1 := by omega
  simp [windowSlice, atF, List.getD_eq_getElem?_getD, List.getElem?_drop,
    List.getElem?_take_of_lt hlt]

theorem mem_of_mem_windowSlice (xs : List FVal) (w i : ℕ) {y : FVal}
    (h : y ∈ windowSlice xs w i) : y ∈ xs :=
  List.take_subset (i + 1) xs (List.drop_subset (i + 1 - w) _ h)

theorem sumF_map_fin (qs : List ℚ) : sumF (qs.map FVal.fin) = FVal.fin qs.sum := by
  induction qs with
  | nil => rfl
  | cons q rest ih => simp [sumF, List.foldr] at ih ⊢; rw [ih, FVal.add_fin_fin]

theorem any_isNan_map_fin (qs : List ℚ) : (qs.map FVal.fin).any FVal.isNan = false := by
  simp [List.any_map, Function.comp_def, FVal.isNan]

theorem windowSlice_map_fin (qs : List ℚ) (w i : ℕ) :
    windowSlice (qs.map FVal.fin) w i = ((qs.take (i + 1)).drop (i + 1 - w)).map FVal.fin := by
  simp [windowSlice, List.map_take, List.map_drop]

theorem rollingMean_warmup (w : ℕ) (xs : List FVal) (i : ℕ) (h : i < xs.length)
    (hw : i + 1 < w) : atF (rollingMean w xs) i = FVal.nan := by
  rw [rollingMean, atF_rollingOp _ _ _ _ h, if_pos hw]

theorem rollingMean_map_fin (qs : List ℚ) (w i : ℕ) (hw1 : 1 ≤ w)
    (h : i < qs.length) (hw : w ≤ i + 1) :
    atF (rollingMean w (qs.map FVal.fin)) i =
      FVal.fin (((qs.take (i + 1)).drop (i + 1 - w)).sum / w) := by
  have h' : i < (qs.map FVal.fin).length := by simpa using h
  rw [rollingMean, atF_rollingOp _ _ _ _ h', if_neg (by omega)]
  rw [windowSlice_map_fin, meanAgg, any_isNan_map_fin, sumF_map_fin]
  have : ((w : ℚ)) ≠ 0 := by
    have : 0 < w := hw1
    exact_mod_cast Nat.pos_iff_ne_zero.mp this
  simp [FVal.div_fin_fin _ _ this]

/-- C2: `sma(values, window)` is NaN at every position `< window - 1` and the
arithmetic mean of the trailing `window` values from position `window - 1` on;
in particular `sma([10,11,12,11,10], 3) = [NaN, NaN, 11, 34/3, 11]`. -/
theorem sma_undefined_then_mean (values : List ℚ) (window : ℕ) (hw : 1 ≤ window) :
    (sma (values.map FVal.fin) window).length = values.length ∧
    (∀ i, i < values.length → i + 1 < window →
      atF (sma (values.map FVal.fin) window) i = FVal.nan) ∧
    (∀ i, i < values.length → window ≤ i + 1 →
      atF (sma (values.map FVal.fin) window) i =
        FVal.fin (((values.take (i + 1)).drop (i + 1 - window)).sum / window)) ∧
    sma ([10, 11, 12, 11, 10].map FVal.fin) 3 =
      [FVal.nan, FVal.nan, FVal.fin 11, FVal.fin (34 / 3), FVal.fin 11] := by
  refine ⟨by simp [sma, rollingMean, length_rollingOp], ?_, ?_, ?_⟩
  · intro i hi hiw
    exact rollingMean_warmup window _ i (by simpa using hi) hiw
  · intro i hi hiw
    exact rollingMean_map_fin values window i hw hi hiw
  · norm_num [sma, rollingMean, rollingOp, windowSlice, meanAgg, sumF,
      FVal.div, FVal.add, FVal.isNan, List.range_succ]

/-- Witness for C2 at the spec's example input. -/
theorem sma_undefined_then_mean_witness :
    sma ([10, 11, 12, 11, 10].map FVal.fin) 3 =
      [FVal.nan, FVal.nan, FVal.fin 11, FVal.fin (34 / 3), FVal.fin 11] :=
  (sma_undefined_then_mean [10, 11, 12, 11, 10] 3 (by decide)).2.2.2

/-! ## EMA (claim C1) -/

/-- The exact rational run of the `adjust=False` EWM recurrence from a seed `p`:
each output is `a * v + (1 - a) * previous`. -/
def emaQ (a : ℚ) (p : ℚ) : List ℚ → List ℚ
  | [] => []
  | v :: rest => (a * v + (1 - a) * p) :: emaQ a (a * v + (1 - a) * p) rest

/-- The full EMA run on a finite series: seeded with the first value. -/
def emaQList (a : ℚ) : List ℚ → List ℚ
  | [] => []
  | v :: rest => v :: emaQ a v rest

theorem ewmAux_map_fin (a p : ℚ) (vs : List ℚ) :
    ewmAux a (some (FVal.fin p)) 1 (vs.map FVal.fin) = (emaQ a p vs).map FVal.fin := by
  induction vs generalizing p with
  | nil => rfl
  | cons v rest ih =>
      simp only [List.map_cons, ewmAux, FVal.isNan, Bool.false_eq_true, if_false, emaQ]
      rw [FVal.mul_fin_fin, FVal.mul_fin_fin, FVal.add_fin_fin,
        FVal.div_fin_fin _ _ (by ring_nf; norm_num : (1 * (1 - a) + a : ℚ) ≠ 0)]
      have harith : (1 * (1 - a) * p + a * v) / (1 * (1 - a) + a) = a * v + (1 - a) * p := by
        field_simp
        ring
      rw [harith, ih]

theorem ema_map_fin (values : List ℚ) (span : ℕ) :
    ema (values.map FVal.fin) span = (emaQList (2 / ((span : ℚ) + 1)) values).map FVal.fin := by
  cases values with
  | nil => rfl
  | cons v rest =>
      simp only [ema, List.map_cons, ewmAux, FVal.isNan, Bool.false_eq_true, if_false, emaQList]
      rw [ewmAux_map_fin]

theorem length_emaQ (a p : ℚ) (vs : List ℚ) : (emaQ a p vs).length = vs.length := by
  induction vs generalizing p with
  | nil => rfl
  | cons v rest ih => simp [emaQ, ih]

theorem length_emaQList (a : ℚ) (vs : List ℚ) : (emaQList a vs).length = vs.length := by
  cases vs with
  | nil => rfl
  | cons v rest => simp [emaQList, length_emaQ]

theorem emaQ_getD_step (a : ℚ) (vs : List ℚ) :
    ∀ (p : ℚ) (j : ℕ), j < vs.length →
      (emaQ a p vs).getD j 0 =
        a * vs.getD j 0 + (1 - a) * (if j = 0 then p else (emaQ a p vs).getD (j - 1) 0) := by
  induction vs with
  | nil => intro p j h; simp at h
  | cons v rest ih =>
      intro p j h
      cases j with
      | zero => simp [emaQ]
      | succ j' =>
          have hj' : j' < rest.length := by simpa using h
          simp only [emaQ, List.getD_cons_succ]
          rw [ih _ j' hj']
          cases j' with
          | zero => simp [emaQ]
          | succ k => simp [emaQ]

/-- C1: for every finite series and span ≥ 1, `ema` returns a series of the
same length defined (finite) at every position, seeded with the first value,
and satisfying `ema[i] = α·values[i] + (1-α)·ema[i-1]` with `α = 2/(span+1)`. -/
theorem ema_seed_recurrence (values : List ℚ) (span : ℕ) (hspan : 1 ≤ span) :
    (ema (values.map FVal.fin) span).length = values.length ∧
    ∃ e : ℕ → ℚ,
      (∀ i, i < values.length → atF (ema (values.map FVal.fin) span) i = FVal.fin (e i)) ∧
      (0 < values.length → e 0 = values.getD 0 0) ∧
      (∀ i, 0 < i → i < values.length →
        e i = (2 / ((span : ℚ) + 1)) * values.getD i 0
              + (1 - 2 / ((span : ℚ) + 1)) * e (i - 1)) := by
  set a : ℚ := 2 / ((span : ℚ) + 1) with ha
  refine ⟨by rw [ema_map_fin]; simp [length_emaQList], ?_⟩
  refine ⟨fun i => (emaQList a values).getD i 0, ?_, ?_, ?_⟩
  · intro i hi
    rw [ema_map_fin, atF]
    have hi' : i < (emaQList a values).length := by rw [length_emaQList]; exact hi
    simp [List.getD_eq_getElem?_getD, List.getElem?_map, List.getElem?_eq_getElem hi']
  · intro hpos
    cases values with
    | nil => simp at hpos
    | cons v rest => simp [emaQList]
  · intro i hipos hilt
    cases values with
    | nil => simp at hilt
    | cons v rest =>
        obtain ⟨j, rfl⟩ : ∃ j, i = j + 1 := ⟨i - 1, by omega⟩
        have hj : j < rest.length := by simpa using hilt
        simp only [emaQList, List.getD_cons_succ]
        rw [emaQ_getD_step a rest v j hj]
        cases j with
        | zero => simp [emaQList]
        | succ k => simp [emaQList]

/-- Witness for C1 at `values = [10, 11, 12]`, `span = 3`. -/
theorem ema_seed_recurrence_witness :
    (ema ([10, 11, 12].map FVal.fin) 3).length = 3 ∧
    ∃ e : ℕ → ℚ,
      (∀ i, i < 3 → atF (ema ([10, 11, 12].map FVal.fin) 3) i = FVal.fin (e i)) ∧
      (0 < 3 → e 0 = ([10, 11, 12] : List ℚ).getD 0 0) ∧
      (∀ i, 0 < i → i < 3 →
        e i = (2 / ((3 : ℚ) + 1)) * ([10, 11, 12] : List ℚ).getD i 0
              + (1 - 2 / ((3 : ℚ) + 1)) * e (i - 1)) := by
  have h := ema_seed_recurrence [10, 11, 12] 3 (by norm_num)
  simpa using h

/-! ## RSI (claims C3, C4) -/

theorem length_diff (xs : List FVal) : (diff xs).length = xs.length := by
  cases xs with
  | nil => rfl
  | cons x rest => simp [diff]

theorem mem_zipWith (f : FVal → FVal → FVal) :
    ∀ (as bs : List FVal) (x : FVal), x ∈ List.zipWith f as bs →
      ∃ a b, a ∈ as ∧ b ∈ bs ∧ x = f a b := by
  intro as
  induction as with
  | nil => intro bs x h; simp [List.zipWith] at h
  | cons a rest ih =>
      intro bs x h
      cases bs with
      | nil => simp [List.zipWith] at h
      | cons b brest =>
          simp only [List.zipWith, List.mem_cons] at h
          rcases h with h | h
          · exact ⟨a, b, by simp, by simp, h⟩
          · obtain ⟨a', b', ha', hb', hx⟩ := ih brest x h
            exact ⟨a', b', by simp [ha'], by simp [hb'], hx⟩

theorem diff_map_fin_entries (qs : List ℚ) :
    ∀ x ∈ diff (qs.map FVal.fin), x = FVal.nan ∨ ∃ q, x = FVal.fin q := by
  cases qs with
  | nil => intro x h; simp [diff] at h
  | cons q rest =>
      intro x h
      simp only [List.map_cons, diff, List.mem_cons] at h
      rcases h with h | h
      · exact Or.inl h
      · obtain ⟨a, b, ha, hb, hx⟩ := mem_zipWith _ _ _ _ h
        obtain ⟨qa, -, rfl⟩ := List.mem_map.mp ha
        have hb' : b ∈ (q :: rest).map FVal.fin := by simpa using hb
        obtain ⟨qb, -, rfl⟩ := List.mem_map.mp hb'
        exact Or.inr ⟨qa - qb, by rw [hx, FVal.sub_fin_fin]⟩

theorem gain_entries (qs : List ℚ) :
    ∀ x ∈ (diff (qs.map FVal.fin)).map clipLower0,
      x = FVal.nan ∨ ∃ q, 0 ≤ q ∧ x = FVal.fin q := by
  intro x h
  obtain ⟨y, hy, rfl⟩ := List.mem_map.mp h
  rcases diff_map_fin_entries qs y hy with rfl | ⟨q, rfl⟩
  · exact Or.inl rfl
  · exact Or.inr ⟨max q 0, le_max_right q 0, rfl⟩

theorem loss_entries (qs : List ℚ) :
    ∀ x ∈ (diff (qs.map FVal.fin)).map (fun d => FVal.neg (clipUpper0 d)),
      x = FVal.nan ∨ ∃ q, 0 ≤ q ∧ x = FVal.fin q := by
  intro x h
  obtain ⟨y, hy, rfl⟩ := List.mem_map.mp h
  rcases diff_map_fin_entries qs y hy with rfl | ⟨q, rfl⟩
  · exact Or.inl rfl
  · refine Or.inr ⟨-(min q 0), by simp [min_le_iff], ?_⟩
    simp [clipUpper0, FVal.neg]

theorem sumF_nonneg_fin (l : List FVal)
    (h : ∀ x ∈ l, ∃ q, 0 ≤ q ∧ x = FVal.fin q) :
    ∃ s, 0 ≤ s ∧ sumF l = FVal.fin s := by
  induction l with
  | nil => exact ⟨0, le_refl 0, rfl⟩
  | cons x rest ih =>
      obtain ⟨q, hq, rfl⟩ := h x (by simp)
      obtain ⟨s, hs, hsum⟩ := ih (fun y hy => h y (by simp [hy]))
      refine ⟨q + s, by positivity, ?_⟩
      simp only [sumF, List.foldr] at hsum ⊢
      rw [hsum, FVal.add_fin_fin]

/-- Shape of a rolling mean of a series with only NaN-or-nonnegative-finite
entries: every output position is NaN or a nonnegative finite value. -/
theorem rollingMean_shape_nonneg (w : ℕ) (xs : List FVal) (hw : 1 ≤ w)
    (hent : ∀ x ∈ xs, x = FVal.nan ∨ ∃ q, 0 ≤ q ∧ x = FVal.fin q)
    (i : ℕ) (hi : i < xs.length) :
    atF (rollingMean w xs) i = FVal.nan ∨
      ∃ q, 0 ≤ q ∧ atF (rollingMean w xs) i = FVal.fin q := by
  rw [rollingMean, atF_rollingOp _ _ _ _ hi]
  by_cases hwu : i + 1 < w
  · simp [hwu]
  · rw [if_neg hwu]
    rw [meanAgg]
    by_cases hnan : (windowSlice xs w i).any FVal.isNan = true
    · simp [hnan]
    · rw [if_neg (by simpa using hnan)]
      have hnn : ∀ x ∈ windowSlice xs w i, ∃ q, 0 ≤ q ∧ x = FVal.fin q := by
        intro x hx
        rcases hent x (mem_of_mem_windowSlice xs w i hx) with rfl | hfin
        · exfalso
          apply hnan
          simp only [List.any_eq_true]
          exact ⟨FVal.nan, hx, rfl⟩
        · exact hfin
      obtain ⟨s, hs, hsum⟩ := sumF_nonneg_fin _ hnn
      rw [hsum, FVal.div_fin_fin _ _ (by exact_mod_cast Nat.pos_iff_ne_zero.mp hw)]
      exact Or.inr ⟨s / w, by positivity, rfl⟩

theorem length_avgGain (prices : List FVal) (period : ℕ) :
    (avgGain prices period).length = prices.length := by
  simp [avgGain, rollingMean, length_rollingOp, length_diff]

theorem length_avgLoss (prices : List FVal) (period : ℕ) :
    (avgLoss prices period).length = prices.length := by
  simp [avgLoss, rollingMean, length_rollingOp, length_diff]

theorem length_rsi (prices : List FVal) (period : ℕ) :
    (rsi prices period).length = prices.length := by
  simp [rsi, length_avgGain, length_avgLoss]

theorem atF_rsi (prices : List FVal) (period : ℕ) (i : ℕ) (hi : i < prices.length) :
    atF (rsi prices period) i =
      FVal.sub (FVal.fin 100) (FVal.div (FVal.fin 100)
        (FVal.add (FVal.fin 1)
          (FVal.div (atF (avgGain prices period) i) (atF (avgLoss prices period) i)))) := by
  rw [rsi, atF_map _ _ _ (by simp [length_avgGain, length_avgLoss]; omega),
    atF_zipWith _ _ _ _ (by simp [length_avgGain]; omega) (by simp [length_avgLoss]; omega)]

/-- C3: wherever `avg_gain` and `avg_loss` are both defined and not both 0,
the RSI value is finite and lies in [0, 100], and it equals 100 exactly when
`avg_loss = 0` and `avg_gain > 0`. -/
theorem rsi_bounded_and_saturation (prices : List ℚ) (period : ℕ) (hp : 1 ≤ period)
    (i : ℕ) (hi : i < prices.length) (g l : ℚ)
    (hg : atF (avgGain (prices.map FVal.fin) period) i = FVal.fin g)
    (hl : atF (avgLoss (prices.map FVal.fin) period) i = FVal.fin l)
    (hnd : ¬(g = 0 ∧ l = 0)) :
    ∃ r, atF (rsi (prices.map FVal.fin) period) i = FVal.fin r ∧
      0 ≤ r ∧ r ≤ 100 ∧ (r = 100 ↔ l = 0 ∧ 0 < g) := by
  have hi' : i < (prices.map FVal.fin).length := by simpa using hi
  have hgain := rollingMean_shape_nonneg period _ hp (gain_entries prices) i
    (by simp [length_diff]; omega)
  have hloss := rollingMean_shape_nonneg period _ hp (loss_entries prices) i
    (by simp [length_diff]; omega)
  rw [avgGain] at hg
  rw [avgLoss] at hl
  have hg0 : 0 ≤ g := by
    rcases hgain with hnan | ⟨q, hq, heq⟩
    · rw [hg] at hnan; cases hnan
    · rw [hg] at heq; cases heq; assumption
  have hl0 : 0 ≤ l := by
    rcases hloss with hnan | ⟨q, hq, heq⟩
    · rw [hl] at hnan; cases hnan
    · rw [hl] at heq; cases heq; assumption
  rw [atF_rsi _ _ _ hi', avgGain, avgLoss, hg, hl]
  rcases lt_or_eq_of_le hl0 with hlpos | hlzero
  · -- avg_loss > 0: the ordinary finite branch, RSI in [0, 100)
    set x : ℚ := g / l with hx
    have hx0 : 0 ≤ x := by positivity
    have h1x : (0:ℚ) < 1 + x := by linarith
    rw [FVal.div_fin_fin _ _ (ne_of_gt hlpos), FVal.add_fin_fin,
      FVal.div_fin_fin _ _ (ne_of_gt h1x), FVal.sub_fin_fin]
    refine ⟨100 - 100 / (1 + x), rfl, ?_, ?_, ?_⟩
    · have : 100 / (1 + x) ≤ 100 := by
        rw [div_le_iff₀ h1x]; nlinarith
      linarith
    · have : 0 < 100 / (1 + x) := by positivity
      linarith
    · constructor
      · intro habs
        have : 100 / (1 + x) = 0 := by linarith
        have : (100:ℚ) = 0 := by
          field_simp at this
        norm_num at this
      · rintro ⟨rfl, -⟩
        exact absurd rfl (ne_of_gt hlpos)
  · -- avg_loss = 0 and avg_gain > 0: rs = +inf, RSI saturates to exactly 100
    have hgpos : 0 < g := by
      rcases lt_or_eq_of_le hg0 with h | h
      · exact h
      · exact absurd ⟨h.symm, hlzero.symm⟩ hnd
    rw [← hlzero, FVal.div_fin_zero_pos g hgpos]
    refine ⟨100, ?_, by norm_num, by norm_num, by simp [hlzero.symm, hgpos]⟩
    simp [FVal.add, FVal.div, FVal.sub, FVal.neg]

/-- Witness for C3 at `prices = [1, 3]`, `period = 1`, position 1
(avg_gain = 2, avg_loss = 0: RSI saturates to 100). -/
theorem rsi_bounded_and_saturation_witness :
    ∃ r, atF (rsi ([1, 3].map FVal.fin) 1) 1 = FVal.fin r ∧
      0 ≤ r ∧ r ≤ 100 ∧ (r = 100 ↔ (0:ℚ) = 0 ∧ (0:ℚ) < 2) :=
  rsi_bounded_and_saturation [1, 3] 1 (le_refl 1) 1 (by norm_num) 2 0
    (by norm_num [avgGain, rollingMean, rollingOp, windowSlice, meanAgg, sumF, diff,
      atF, FVal.sub, FVal.add, FVal.neg, FVal.div, FVal.isNan, clipLower0, List.range_succ])
    (by norm_num [avgLoss, rollingMean, rollingOp, windowSlice, meanAgg, sumF, diff,
      atF, FVal.sub, FVal.add, FVal.neg, FVal.div, FVal.isNan, clipUpper0, List.range_succ])
    (by norm_num)

/-! ## Stochastic and ADX (claims C4, C5, C6, C7) -/

/-- An OHLCV table: each column may be absent (the indicator code asserts
presence of Open/High/Low/Close before computing). -/
structure DataFrame where
  openCol : Option (List FVal)
  highCol : Option (List FVal)
  lowCol : Option (List FVal)
  closeCol : Option (List FVal)
  volumeCol : Option (List FVal)

/-- `%K = 100 * (Close - low_min) / (high_max - low_min)` with
`low_min = Low.rolling(k_window).min()`, `high_max = High.rolling(k_window).max()`. -/
def percentK (high low close : List FVal) (k_window : ℕ) : List FVal :=
  let low_min := rollingMin k_window low
  let high_max := rollingMax k_window high
  List.zipWith FVal.div
    (List.zipWith (fun c lm => FVal.mul (FVal.fin 100) (FVal.sub c lm)) close low_min)
    (List.zipWith FVal.sub high_max low_min)

/-- The stochastic computation after column validation:
`(%K, %D = %K.rolling(d_window).mean())`. -/
def stochasticCore (high low close : List FVal) (k_window d_window : ℕ) :
    List FVal × List FVal :=
  let pk := percentK high low close k_window
  (pk, rollingMean d_window pk)

/-- `stochastic(prices_ohlc, k_window, d_window)`: asserts the presence of all
four OHLC columns (in source order Open, High, Low, Close) before computing;
an absent column aborts with the assertion message and no output. -/
def stochastic (df : DataFrame) (k_window d_window : ℕ) :
    Except String (List FVal × List FVal) :=
  match df.openCol with
  | none => Except.error "FATAL: prices dataframe does not have a Open prices column!"
  | some _ =>
  match df.highCol with
  | none => Except.error "FATAL: prices dataframe does not have a High prices column!"
  | some high =>
  match df.lowCol with
  | none => Except.error "FATAL: prices dataframe does not have a Low prices column!"
  | some low =>
  match df.closeCol with
  | none => Except.error "FATAL: prices dataframe does not have a Close column!"
  | some close => Except.ok (stochasticCore high low close k_window d_window)

/-- Three-way `zipWith` (row-wise combination of three aligned columns). -/
def zipW3 (f : FVal → FVal → FVal → FVal) : List FVal → List FVal → List FVal → List FVal
  | a :: as, b :: bs, c :: cs => f a b c :: zipW3 f as bs cs
  | _, _, _ => []

/-- `plus_dm = high.diff()` then `plus_dm[plus_dm < 0] = 0`
(NaN compares false, so the first NaN survives the mask). -/
def plusDm (high : List FVal) : List FVal :=
  (diff high).map (fun x => if FVal.flt x (FVal.fin 0) then FVal.fin 0 else x)

/-- `minus_dm = low.diff()` then `minus_dm[minus_dm > 0] = 0`. -/
def minusDm (low : List FVal) : List FVal :=
  (diff low).map (fun x => if FVal.fgt x (FVal.fin 0) then FVal.fin 0 else x)

/-- `tr = concat([high-low, |high-close.shift()|, |low-close.shift()|], axis=1).max(axis=1)`
(row-wise max with pandas default `skipna=True`). -/
def trList (high low close : List FVal) : List FVal :=
  zipW3 (fun a b c => maxSkipna [a, b, c])
    (List.zipWith FVal.sub high low)
    (List.zipWith (fun h pc => FVal.fabs (FVal.sub h pc)) high (shift close))
    (List.zipWith (fun l pc => FVal.fabs (FVal.sub l pc)) low (shift close))

/-- `atr = tr.rolling(period).mean()`. -/
def atrList (high low close : List FVal) (period : ℕ) : List FVal :=
  rollingMean period (trList high low close)

/-- `plus_di = 100 * (plus_dm.rolling(period).mean() / atr)`. -/
def plusDi (high low close : List FVal) (period : ℕ) : List FVal :=
  List.zipWith (fun m a => FVal.mul (FVal.fin 100) (FVal.div m a))
    (rollingMean period (plusDm high)) (atrList high low close period)

/-- `minus_di = abs(100 * (minus_dm.rolling(period).mean() / atr))`. -/
def minusDi (high low close : List FVal) (period : ℕ) : List FVal :=
  List.zipWith (fun m a => FVal.fabs (FVal.mul (FVal.fin 100) (FVal.div m a)))
    (rollingMean period (minusDm low)) (atrList high low close period)

/-- `dx = (abs(plus_di - minus_di) / (plus_di + minus_di)) * 100`. -/
def dxList (high low close : List FVal) (period : ℕ) : List FVal :=
  List.zipWith (fun p m => FVal.mul (FVal.div (FVal.fabs (FVal.sub p m)) (FVal.add p m)) (FVal.fin 100))
    (plusDi high low close period) (minusDi high low close period)

/-- `adx = dx.rolling(period).mean()`. -/
def adxLine (high low close : List FVal) (period : ℕ) : List FVal :=
  rollingMean period (dxList high low close period)

/-- The ADX computation after column validation:
`(adx_line, plus_di, minus_di)`. -/
def adxCore (high low close : List FVal) (period : ℕ) :
    List FVal × List FVal × List FVal :=
  (adxLine high low close period, plusDi high low close period, minusDi high low close period)

/-- `adx(prices_ohlc, period)`: same four-column assertion pattern as
`stochastic`, then the DMI/ADX computation. -/
def adx (df : DataFrame) (period : ℕ) :
    Except String (List FVal × List FVal × List FVal) :=
  match df.openCol with
  | none => Except.error "FATAL: prices dataframe does not have a Open prices column!"
  | some _ =>
  match df.highCol with
  | none => Except.error "FATAL: prices dataframe does not have a High prices column!"
  | some high =>
  match df.lowCol with
  | none => Except.error "FATAL: prices dataframe does not have a Low prices column!"
  | some low =>
  match df.closeCol with
  | none => Except.error "FATAL: prices dataframe does not have a Close column!"
  | some close => Except.ok (adxCore high low close period)

/-- C5: `stochastic` and `adx` fail with an assertion error exactly when one of
the four OHLC columns is absent (Open included, though neither reads it), and
produce no partial output in that case; with all four present they return a
result. -/
theorem stochastic_adx_validate_ohlc (df : DataFrame) (k_window d_window period : ℕ) :
    ((∃ e, stochastic df k_window d_window = Except.error e) ↔
      (df.openCol = none ∨ df.highCol = none ∨ df.lowCol = none ∨ df.closeCol = none)) ∧
    ((∃ e, adx df period = Except.error e) ↔
      (df.openCol = none ∨ df.highCol = none ∨ df.lowCol = none ∨ df.closeCol = none)) := by
  obtain ⟨o, h, l, c, v⟩ := df
  cases o <;> cases h <;> cases l <;> cases c <;>
    simp [stochastic, adx]

theorem length_zipW3 (f : FVal → FVal → FVal → FVal) :
    ∀ (as bs cs : List FVal),
      (zipW3 f as bs cs).length = min (min as.length bs.length) cs.length := by
  intro as
  induction as with
  | nil => intro bs cs; cases bs <;> cases cs <;> simp [zipW3]
  | cons a arest ih =>
      intro bs cs
      cases bs with
      | nil => simp [zipW3]
      | cons b brest =>
          cases cs with
          | nil => simp [zipW3]
          | cons c crest => simp [zipW3, ih brest crest]; omega

theorem atF_zipW3 (f : FVal → FVal → FVal → FVal) :
    ∀ (as bs cs : List FVal) (i : ℕ), i < as.length → i < bs.length → i < cs.length →
      atF (zipW3 f as bs cs) i = f (atF as i) (atF bs i) (atF cs i) := by
  intro as
  induction as with
  | nil => intro bs cs i h1; simp at h1
  | cons a arest ih =>
      intro bs cs i h1 h2 h3
      cases bs with
      | nil => simp at h2
      | cons b brest =>
          cases cs with
          | nil => simp at h3
          | cons c crest =>
              cases i with
              | zero => rfl
              | succ i' =>
                  simp only [zipW3, atF, List.getD_cons_succ]
                  exact ih brest crest i' (by simpa using h1) (by simpa using h2)
                    (by simpa using h3)

/-- A NaN anywhere inside the trailing window forces the rolling mean to NaN
at that position (pandas `min_periods = window` semantics): NaN flows through
downstream rolling means as data, never as an exception. -/
theorem rollingMean_nan_in_window (w : ℕ) (xs : List FVal) (i j : ℕ) (hw : 1 ≤ w)
    (hj : j ≤ i) (hiw : i < j + w) (hi : i < xs.length)
    (hnan : atF xs j = FVal.nan) : atF (rollingMean w xs) i = FVal.nan := by
  rw [rollingMean, atF_rollingOp _ _ _ _ hi]
  by_cases hwu : i + 1 < w
  · simp [hwu]
  · rw [if_neg hwu]
    have hw2 : w ≤ i + 1 := by omega
    have hk : j - (i + 1 - w) < w := by omega
    have hidx : i + 1 - w + (j - (i + 1 - w)) = j := by omega
    have hval : atF (windowSlice xs w i) (j - (i + 1 - w)) = FVal.nan := by
      rw [atF_windowSlice xs w i _ hi hw2 hk, hidx, hnan]
    have hmem : FVal.nan ∈ windowSlice xs w i := by
      rw [← hval]
      exact atF_mem _ _ (by rw [length_windowSlice xs w i hi hw2]; exact hk)
    have hany : (windowSlice xs w i).any FVal.isNan = true := by
      simp only [List.any_eq_true]
      exact ⟨FVal.nan, hmem, rfl⟩
    simp [meanAgg, hany]

theorem atF_plusDm_zero (high : List FVal) (h : 0 < high.length) :
    atF (plusDm high) 0 = FVal.nan := by
  cases high with
  | nil => simp at h
  | cons x rest => simp [plusDm, diff, atF, FVal.flt]

theorem atF_minusDm_zero (low : List FVal) (h : 0 < low.length) :
    atF (minusDm low) 0 = FVal.nan := by
  cases low with
  | nil => simp at h
  | cons x rest => simp [minusDm, diff, atF, FVal.fgt, FVal.flt]

theorem length_plusDm (high : List FVal) : (plusDm high).length = high.length := by
  simp [plusDm, length_diff]

theorem length_minusDm (low : List FVal) : (minusDm low).length = low.length := by
  simp [minusDm, length_diff]

theorem length_shift (xs : List FVal) : (shift xs).length = xs.length := by
  cases xs with
  | nil => rfl
  | cons x rest => simp [shift]

theorem length_trList (high low close : List FVal)
    (hH : high.length = close.length) (hL : low.length = close.length) :
    (trList high low close).length = close.length := by
  simp [trList, length_zipW3, length_shift, hH, hL]

theorem length_atrList (high low close : List FVal) (period : ℕ)
    (hH : high.length = close.length) (hL : low.length = close.length) :
    (atrList high low close period).length = close.length := by
  simp [atrList, rollingMean, length_rollingOp, length_trList high low close hH hL]

theorem length_plusDi (high low close : List FVal) (period : ℕ)
    (hH : high.length = close.length) (hL : low.length = close.length) :
    (plusDi high low close period).length = close.length := by
  simp [plusDi, rollingMean, length_rollingOp, length_plusDm,
    length_atrList high low close period hH hL, hH]

theorem length_minusDi (high low close : List FVal) (period : ℕ)
    (hH : high.length = close.length) (hL : low.length = close.length) :
    (minusDi high low close period).length = close.length := by
  simp [minusDi, rollingMean, length_rollingOp, length_minusDm,
    length_atrList high low close period hH hL, hL]

theorem length_dxList (high low close : List FVal) (period : ℕ)
    (hH : high.length = close.length) (hL : low.length = close.length) :
    (dxList high low close period).length = close.length := by
  simp [dxList, length_plusDi high low close period hH hL,
    length_minusDi high low close period hH hL]

theorem length_adxLine (high low close : List FVal) (period : ℕ)
    (hH : high.length = close.length) (hL : low.length = close.length) :
    (adxLine high low close period).length = close.length := by
  simp [adxLine, rollingMean, length_rollingOp,
    length_dxList high low close period hH hL]

theorem plusDi_nan_lt_period (high low close : List FVal) (period : ℕ)
    (hp : 1 ≤ period) (hH : high.length = close.length) (hL : low.length = close.length)
    (i : ℕ) (hi : i < close.length) (hip : i < period) :
    atF (plusDi high low close period) i = FVal.nan := by
  rw [plusDi, atF_zipWith _ _ _ i
    (by rw [rollingMean, length_rollingOp, length_plusDm, hH]; exact hi)
    (by rw [length_atrList high low close period hH hL]; exact hi)]
  rw [rollingMean_nan_in_window period (plusDm high) i 0 hp (Nat.zero_le i)
    (by omega) (by rw [length_plusDm, hH]; exact hi)
    (atF_plusDm_zero high (by omega))]
  rw [FVal.div_nan_left, FVal.mul_nan_right]

theorem minusDi_nan_lt_period (high low close : List FVal) (period : ℕ)
    (hp : 1 ≤ period) (hH : high.length = close.length) (hL : low.length = close.length)
    (i : ℕ) (hi : i < close.length) (hip : i < period) :
    atF (minusDi high low close period) i = FVal.nan := by
  rw [minusDi, atF_zipWith _ _ _ i
    (by rw [rollingMean, length_rollingOp, length_minusDm, hL]; exact hi)
    (by rw [length_atrList high low close period hH hL]; exact hi)]
  rw [rollingMean_nan_in_window period (minusDm low) i 0 hp (Nat.zero_le i)
    (by omega) (by rw [length_minusDm, hL]; exact hi)
    (atF_minusDm_zero low (by omega))]
  rw [FVal.div_nan_left, FVal.mul_nan_right, FVal.fabs_nan]

theorem dx_nan_lt_period (high low close : List FVal) (period : ℕ)
    (hp : 1 ≤ period) (hH : high.length = close.length) (hL : low.length = close.length)
    (j : ℕ) (hj : j < close.length) (hjp : j < period) :
    atF (dxList high low close period) j = FVal.nan := by
  rw [dxList, atF_zipWith _ _ _ j
    (by rw [length_plusDi high low close period hH hL]; exact hj)
    (by rw [length_minusDi high low close period hH hL]; exact hj)]
  rw [plusDi_nan_lt_period high low close period hp hH hL j hj hjp,
    FVal.sub_nan_left, FVal.fabs_nan, FVal.add_nan_left, FVal.div_nan_left,
    FVal.mul_nan_left]

theorem adxLine_nan_lt (high low close : List FVal) (period : ℕ)
    (hp : 1 ≤ period) (hH : high.length = close.length) (hL : low.length = close.length)
    (i : ℕ) (hi : i < close.length) (hip : i < 2 * period - 1) :
    atF (adxLine high low close period) i = FVal.nan := by
  rw [adxLine]
  by_cases hwu : i + 1 < period
  · exact rollingMean_warmup period _ i
      (by rw [length_dxList high low close period hH hL]; exact hi) hwu
  · exact rollingMean_nan_in_window period _ i (i + 1 - period) hp (by omega) (by omega)
      (by rw [length_dxList high low close period hH hL]; exact hi)
      (dx_nan_lt_period high low close period hp hH hL (i + 1 - period)
        (by omega) (by omega))

/-- Shape predicate: NaN, +inf, or a nonnegative finite value (the possible
outputs of the nonnegative ratio expressions inside `adx`). -/
def NNV (x : FVal) : Prop :=
  x = FVal.nan ∨ x = FVal.pinf ∨ ∃ q, 0 ≤ q ∧ x = FVal.fin q

theorem forall_mem_of_atF {P : FVal → Prop} (l : List FVal)
    (h : ∀ j, j < l.length → P (atF l j)) : ∀ x ∈ l, P x := by
  intro x hx
  obtain ⟨i, hi, rfl⟩ := List.mem_iff_getElem.mp hx
  rw [← atF_eq_getElem l i hi]
  exact h i hi

theorem atF_map_fin (qs : List ℚ) (j : ℕ) (h : j < qs.length) :
    atF (qs.map FVal.fin) j = FVal.fin (qs.getD j 0) := by
  simp [atF, List.getD_eq_getElem?_getD, List.getElem?_map, List.getElem?_eq_getElem h]

theorem sumF_nonpos_fin (l : List FVal)
    (h : ∀ x ∈ l, ∃ q, q ≤ 0 ∧ x = FVal.fin q) :
    ∃ s, s ≤ 0 ∧ sumF l = FVal.fin s := by
  induction l with
  | nil => exact ⟨0, le_refl 0, rfl⟩
  | cons x rest ih =>
      obtain ⟨q, hq, rfl⟩ := h x (by simp)
      obtain ⟨s, hs, hsum⟩ := ih (fun y hy => h y (by simp [hy]))
      refine ⟨q + s, by linarith, ?_⟩
      simp only [sumF, List.foldr] at hsum ⊢
      rw [hsum, FVal.add_fin_fin]

theorem sumF_all_fin (l : List FVal)
    (h : ∀ x ∈ l, ∃ q, x = FVal.fin q) : ∃ s, sumF l = FVal.fin s := by
  induction l with
  | nil => exact ⟨0, rfl⟩
  | cons x rest ih =>
      obtain ⟨q, rfl⟩ := h x (by simp)
      obtain ⟨s, hsum⟩ := ih (fun y hy => h y (by simp [hy]))
      refine ⟨q + s, ?_⟩
      simp only [sumF, List.foldr] at hsum ⊢
      rw [hsum, FVal.add_fin_fin]

/-- Dual of `rollingMean_shape_nonneg` for NaN-or-nonpositive-finite entries. -/
theorem rollingMean_shape_nonpos (w : ℕ) (xs : List FVal) (hw : 1 ≤ w)
    (hent : ∀ x ∈ xs, x = FVal.nan ∨ ∃ q, q ≤ 0 ∧ x = FVal.fin q)
    (i : ℕ) (hi : i < xs.length) :
    atF (rollingMean w xs) i = FVal.nan ∨
      ∃ q, q ≤ 0 ∧ atF (rollingMean w xs) i = FVal.fin q := by
  rw [rollingMean, atF_rollingOp _ _ _ _ hi]
  by_cases hwu : i + 1 < w
  · simp [hwu]
  · rw [if_neg hwu]
    rw [meanAgg]
    by_cases hnan : (windowSlice xs w i).any FVal.isNan = true
    · simp [hnan]
    · rw [if_neg (by simpa using hnan)]
      have hnp : ∀ x ∈ windowSlice xs w i, ∃ q, q ≤ 0 ∧ x = FVal.fin q := by
        intro x hx
        rcases hent x (mem_of_mem_windowSlice xs w i hx) with rfl | hfin
        · exact absurd (by simp only [List.any_eq_true]; exact ⟨FVal.nan, hx, rfl⟩) hnan
        · exact hfin
      obtain ⟨s, hs, hsum⟩ := sumF_nonpos_fin _ hnp
      rw [hsum, FVal.div_fin_fin _ _ (by exact_mod_cast Nat.pos_iff_ne_zero.mp hw)]
      refine Or.inr ⟨s / w, ?_, rfl⟩
      have hw0 : (0:ℚ) < w := by exact_mod_cast hw
      exact div_nonpos_of_nonpos_of_nonneg hs (le_of_lt hw0)

theorem plusDm_entries (qs : List ℚ) :
    ∀ x ∈ plusDm (qs.map FVal.fin), x = FVal.nan ∨ ∃ q, 0 ≤ q ∧ x = FVal.fin q := by
  intro x hx
  obtain ⟨y, hy, rfl⟩ := List.mem_map.mp hx
  rcases diff_map_fin_entries qs y hy with rfl | ⟨q, rfl⟩
  · left; simp [FVal.flt]
  · right
    by_cases hq : q < 0
    · exact ⟨0, le_refl 0, by simp [FVal.flt, hq]⟩
    · exact ⟨q, by linarith, by simp [FVal.flt, hq]⟩

theorem minusDm_entries (qs : List ℚ) :
    ∀ x ∈ minusDm (qs.map FVal.fin), x = FVal.nan ∨ ∃ q, q ≤ 0 ∧ x = FVal.fin q := by
  intro x hx
  obtain ⟨y, hy, rfl⟩ := List.mem_map.mp hx
  rcases diff_map_fin_entries qs y hy with rfl | ⟨q, rfl⟩
  · left; simp [FVal.fgt, FVal.flt]
  · right
    by_cases hq : 0 < q
    · exact ⟨0, le_refl 0, by simp [FVal.fgt, FVal.flt, hq]⟩
    · exact ⟨q, by linarith, by simp [FVal.fgt, FVal.flt, hq]⟩

theorem shift_map_fin_entries (qs : List ℚ) :
    ∀ x ∈ shift (qs.map FVal.fin), x = FVal.nan ∨ ∃ q, x = FVal.fin q := by
  cases qs with
  | nil => intro x hx; simp [shift] at hx
  | cons q rest =>
      intro x hx
      simp only [List.map_cons, shift, List.mem_cons] at hx
      rcases hx with rfl | hx
      · exact Or.inl rfl
      · have : x ∈ (FVal.fin q :: rest.map FVal.fin) := List.dropLast_subset _ hx
        have : x ∈ (q :: rest).map FVal.fin := by simpa using this
        obtain ⟨qa, -, rfl⟩ := List.mem_map.mp this
        exact Or.inr ⟨qa, rfl⟩

theorem maxSkipna_cons_fin (a : ℚ) (x2 x3 : FVal)
    (h2 : x2 = FVal.nan ∨ ∃ b, x2 = FVal.fin b)
    (h3 : x3 = FVal.nan ∨ ∃ b, x3 = FVal.fin b) :
    ∃ m, a ≤ m ∧ maxSkipna [FVal.fin a, x2, x3] = FVal.fin m := by
  rcases h2 with rfl | ⟨b2, rfl⟩ <;> rcases h3 with rfl | ⟨b3, rfl⟩
  · exact ⟨a, le_refl a, by simp [maxSkipna, FVal.isNan]⟩
  · exact ⟨max a b3, le_max_left a b3, by simp [maxSkipna, FVal.isNan, FVal.fmax]⟩
  · exact ⟨max a b2, le_max_left a b2, by simp [maxSkipna, FVal.isNan, FVal.fmax]⟩
  · exact ⟨max (max a b2) b3, le_trans (le_max_left a b2) (le_max_left _ b3),
      by simp [maxSkipna, FVal.isNan, FVal.fmax]⟩

theorem div_fin_zero_neg (a : ℚ) (ha : a < 0) :
    FVal.div (FVal.fin a) (FVal.fin 0) = FVal.ninf := by
  simp [FVal.div, ha.ne, not_lt.mpr ha.le]

theorem plusDiExpr_shape (m a : FVal)
    (hm : m = FVal.nan ∨ ∃ q, 0 ≤ q ∧ m = FVal.fin q)
    (ha : a = FVal.nan ∨ ∃ q, 0 ≤ q ∧ a = FVal.fin q) :
    NNV (FVal.mul (FVal.fin 100) (FVal.div m a)) := by
  rcases hm with rfl | ⟨mq, hmq, rfl⟩
  · left; rw [FVal.div_nan_left, FVal.mul_nan_right]
  rcases ha with rfl | ⟨aq, haq, rfl⟩
  · left; rw [FVal.div_nan_right, FVal.mul_nan_right]
  rcases eq_or_lt_of_le haq with haz | hapos
  · rcases eq_or_lt_of_le hmq with hmz | hmpos
    · left; rw [← haz, ← hmz, FVal.div_fin_zero_zero, FVal.mul_nan_right]
    · right; left
      rw [← haz, FVal.div_fin_zero_pos mq hmpos]
      simp [FVal.mul]
  · right; right
    rw [FVal.div_fin_fin _ _ (ne_of_gt hapos), FVal.mul_fin_fin]
    exact ⟨100 * (mq / aq), by positivity, rfl⟩

theorem minusDiExpr_shape (m a : FVal)
    (hm : m = FVal.nan ∨ ∃ q, q ≤ 0 ∧ m = FVal.fin q)
    (ha : a = FVal.nan ∨ ∃ q, 0 ≤ q ∧ a = FVal.fin q) :
    NNV (FVal.fabs (FVal.mul (FVal.fin 100) (FVal.div m a))) := by
  rcases hm with rfl | ⟨mq, hmq, rfl⟩
  · left; rw [FVal.div_nan_left, FVal.mul_nan_right, FVal.fabs_nan]
  rcases ha with rfl | ⟨aq, haq, rfl⟩
  · left; rw [FVal.div_nan_right, FVal.mul_nan_right, FVal.fabs_nan]
  rcases eq_or_lt_of_le haq with haz | hapos
  · rcases eq_or_lt_of_le hmq with hmz | hmneg
    · left
      rw [← haz, hmz, FVal.div_fin_zero_zero, FVal.mul_nan_right, FVal.fabs_nan]
    · right; left
      rw [← haz, div_fin_zero_neg mq hmneg]
      simp [FVal.mul, FVal.fabs]
  · right; right
    rw [FVal.div_fin_fin _ _ (ne_of_gt hapos), FVal.mul_fin_fin]
    exact ⟨|100 * (mq / aq)|, abs_nonneg _, rfl⟩

theorem dxExpr_shape (p m : FVal) (hp : NNV p) (hm : NNV m) :
    FVal.mul (FVal.div (FVal.fabs (FVal.sub p m)) (FVal.add p m)) (FVal.fin 100) = FVal.nan ∨
      ∃ q, FVal.mul (FVal.div (FVal.fabs (FVal.sub p m)) (FVal.add p m)) (FVal.fin 100) = FVal.fin q := by
  rcases hp with rfl | rfl | ⟨pq, hpq, rfl⟩
  · left
    rw [FVal.sub_nan_left, FVal.fabs_nan, FVal.add_nan_left, FVal.div_nan_left,
      FVal.mul_nan_left]
  · rcases hm with rfl | rfl | ⟨mq, hmq, rfl⟩
    · left
      rw [FVal.sub_nan_right, FVal.fabs_nan, FVal.add_nan_right, FVal.div_nan_left,
        FVal.mul_nan_left]
    · left
      simp [FVal.sub, FVal.neg, FVal.add, FVal.fabs, FVal.div, FVal.mul]
    · left
      simp [FVal.sub, FVal.neg, FVal.add, FVal.fabs, FVal.div, FVal.mul]
  · rcases hm with rfl | rfl | ⟨mq, hmq, rfl⟩
    · left
      rw [FVal.sub_nan_right, FVal.fabs_nan, FVal.add_nan_right, FVal.div_nan_left,
        FVal.mul_nan_left]
    · left
      simp [FVal.sub, FVal.neg, FVal.add, FVal.fabs, FVal.div, FVal.mul]
    · rcases eq_or_lt_of_le (by positivity : (0:ℚ) ≤ pq + mq) with hz | hpos
      · left
        have hpz : pq = 0 := by linarith
        have hmz : mq = 0 := by linarith
        subst hpz; subst hmz
        simp [FVal.sub, FVal.neg, FVal.add, FVal.fabs, FVal.div, FVal.mul]
      · right
        rw [FVal.sub_fin_fin, FVal.add_fin_fin, FVal.fabs,
          FVal.div_fin_fin _ _ (ne_of_gt hpos), FVal.mul_fin_fin]
        exact ⟨|pq - mq| / (pq + mq) * 100, rfl⟩

theorem tr_entries (high low close : List ℚ)
    (hH : high.length = close.length) (hL : low.length = close.length)
    (hwf : ∀ j, j < close.length → low.getD j 0 ≤ high.getD j 0) :
    ∀ x ∈ trList (high.map FVal.fin) (low.map FVal.fin) (close.map FVal.fin),
      ∃ q, 0 ≤ q ∧ x = FVal.fin q := by
  have hH' : (high.map FVal.fin).length = (close.map FVal.fin).length := by simp [hH]
  have hL' : (low.map FVal.fin).length = (close.map FVal.fin).length := by simp [hL]
  apply forall_mem_of_atF
  intro j hj
  rw [length_trList _ _ _ hH' hL'] at hj
  have hjN : j < close.length := by simpa using hj
  have hjH : j < high.length := by omega
  have hjL : j < low.length := by omega
  rw [trList, atF_zipW3 _ _ _ _ j
    (by simp [hH, hL]; omega) (by simp [hH, length_shift]; omega)
    (by simp [hL, length_shift]; omega)]
  rw [atF_zipWith _ _ _ _ (by simpa using hjH) (by simpa using hjL),
    atF_zipWith _ _ _ _ (by simpa using hjH) (by rw [length_shift]; simpa using hjN),
    atF_zipWith _ _ _ _ (by simpa using hjL) (by rw [length_shift]; simpa using hjN)]
  rw [atF_map_fin high j hjH, atF_map_fin low j hjL, FVal.sub_fin_fin]
  have hs := atF (shift (close.map FVal.fin)) j
  have hshape : atF (shift (close.map FVal.fin)) j = FVal.nan ∨
      ∃ c, atF (shift (close.map FVal.fin)) j = FVal.fin c := by
    rcases shift_map_fin_entries close _
      (atF_mem _ j (by rw [length_shift]; simpa using hjN)) with h | ⟨c, h⟩
    · exact Or.inl h
    · exact Or.inr ⟨c, h⟩
  have hd : 0 ≤ high.getD j 0 - low.getD j 0 := by
    have := hwf j hjN
    linarith
  obtain ⟨m, hm, heq⟩ := maxSkipna_cons_fin (high.getD j 0 - low.getD j 0)
    (FVal.fabs (FVal.sub (FVal.fin (high.getD j 0)) (atF (shift (close.map FVal.fin)) j)))
    (FVal.fabs (FVal.sub (FVal.fin (low.getD j 0)) (atF (shift (close.map FVal.fin)) j)))
    (by rcases hshape with h | ⟨c, h⟩
        · rw [h, FVal.sub_nan_right, FVal.fabs_nan]; exact Or.inl rfl
        · rw [h, FVal.sub_fin_fin]; exact Or.inr ⟨_, rfl⟩)
    (by rcases hshape with h | ⟨c, h⟩
        · rw [h, FVal.sub_nan_right, FVal.fabs_nan]; exact Or.inl rfl
        · rw [h, FVal.sub_fin_fin]; exact Or.inr ⟨_, rfl⟩)
  exact ⟨m, le_trans hd hm, heq⟩

theorem atr_shape (high low close : List ℚ) (period : ℕ) (hp : 1 ≤ period)
    (hH : high.length = close.length) (hL : low.length = close.length)
    (hwf : ∀ j, j < close.length → low.getD j 0 ≤ high.getD j 0)
    (i : ℕ) (hi : i < close.length) :
    atF (atrList (high.map FVal.fin) (low.map FVal.fin) (close.map FVal.fin) period) i
        = FVal.nan ∨
      ∃ q, 0 ≤ q ∧
        atF (atrList (high.map FVal.fin) (low.map FVal.fin) (close.map FVal.fin) period) i
          = FVal.fin q := by
  have hH' : (high.map FVal.fin).length = (close.map FVal.fin).length := by simp [hH]
  have hL' : (low.map FVal.fin).length = (close.map FVal.fin).length := by simp [hL]
  exact rollingMean_shape_nonneg period _ hp
    (fun x hx => Or.inr (tr_entries high low close hH hL hwf x hx)) i
    (by rw [length_trList _ _ _ hH' hL']; simpa using hi)

theorem plusDi_shape (high low close : List ℚ) (period : ℕ) (hp : 1 ≤ period)
    (hH : high.length = close.length) (hL : low.length = close.length)
    (hwf : ∀ j, j < close.length → low.getD j 0 ≤ high.getD j 0)
    (i : ℕ) (hi : i < close.length) :
    NNV (atF (plusDi (high.map FVal.fin) (low.map FVal.fin) (close.map FVal.fin) period) i) := by
  have hH' : (high.map FVal.fin).length = (close.map FVal.fin).length := by simp [hH]
  have hL' : (low.map FVal.fin).length = (close.map FVal.fin).length := by simp [hL]
  rw [plusDi, atF_zipWith _ _ _ i
    (by rw [rollingMean, length_rollingOp, length_plusDm]; simp [hH]; omega)
    (by rw [length_atrList _ _ _ _ hH' hL']; simpa using hi)]
  exact plusDiExpr_shape _ _
    (rollingMean_shape_nonneg period _ hp (plusDm_entries high) i
      (by rw [length_plusDm]; simp [hH]; omega))
    (atr_shape high low close period hp hH hL hwf i hi)

theorem minusDi_shape (high low close : List ℚ) (period : ℕ) (hp : 1 ≤ period)
    (hH : high.length = close.length) (hL : low.length = close.length)
    (hwf : ∀ j, j < close.length → low.getD j 0 ≤ high.getD j 0)
    (i : ℕ) (hi : i < close.length) :
    NNV (atF (minusDi (high.map FVal.fin) (low.map FVal.fin) (close.map FVal.fin) period) i) := by
  have hH' : (high.map FVal.fin).length = (close.map FVal.fin).length := by simp [hH]
  have hL' : (low.map FVal.fin).length = (close.map FVal.fin).length := by simp [hL]
  rw [minusDi, atF_zipWith _ _ _ i
    (by rw [rollingMean, length_rollingOp, length_minusDm]; simp [hL]; omega)
    (by rw [length_atrList _ _ _ _ hH' hL']; simpa using hi)]
  exact minusDiExpr_shape _ _
    (rollingMean_shape_nonpos period _ hp (minusDm_entries low) i
      (by rw [length_minusDm]; simp [hL]; omega))
    (atr_shape high low close period hp hH hL hwf i hi)

theorem dx_shape_at (high low close : List ℚ) (period : ℕ) (hp : 1 ≤ period)
    (hH : high.length = close.length) (hL : low.length = close.length)
    (hwf : ∀ j, j < close.length → low.getD j 0 ≤ high.getD j 0)
    (j : ℕ) (hj : j < close.length) :
    atF (dxList (high.map FVal.fin) (low.map FVal.fin) (close.map FVal.fin) period) j
        = FVal.nan ∨
      ∃ q, atF (dxList (high.map FVal.fin) (low.map FVal.fin) (close.map FVal.fin) period) j
        = FVal.fin q := by
  have hH' : (high.map FVal.fin).length = (close.map FVal.fin).length := by simp [hH]
  have hL' : (low.map FVal.fin).length = (close.map FVal.fin).length := by simp [hL]
  rw [dxList, atF_zipWith _ _ _ j
    (by rw [length_plusDi _ _ _ _ hH' hL']; simpa using hj)
    (by rw [length_minusDi _ _ _ _ hH' hL']; simpa using hj)]
  exact dxExpr_shape _ _
    (plusDi_shape high low close period hp hH hL hwf j hj)
    (minusDi_shape high low close period hp hH hL hwf j hj)

/-- C6: for a well-formed OHLC series, `plus_di` and `minus_di` are NaN at every
position `< period`; the adx line is NaN at every position `< 2*period - 1`
(the warm-up of the DI rolling pass compounds with the second rolling pass over
dx); and from position `2*period - 1` on, adx is defined whenever no position
of the trailing dx window is NaN (no 0/0 degeneracy in the window). -/
theorem adx_compounded_warmup (high low close : List ℚ) (period : ℕ)
    (hp : 1 ≤ period) (hH : high.length = close.length) (hL : low.length = close.length)
    (hwf : ∀ j, j < close.length → low.getD j 0 ≤ high.getD j 0) :
    (∀ i, i < close.length → i < period →
      atF (plusDi (high.map FVal.fin) (low.map FVal.fin) (close.map FVal.fin) period) i
          = FVal.nan ∧
      atF (minusDi (high.map FVal.fin) (low.map FVal.fin) (close.map FVal.fin) period) i
          = FVal.nan) ∧
    (∀ i, i < close.length → i < 2 * period - 1 →
      atF (adxLine (high.map FVal.fin) (low.map FVal.fin) (close.map FVal.fin) period) i
        = FVal.nan) ∧
    (∀ i, i < close.length → 2 * period - 1 ≤ i →
      (∀ j, i + 1 - period ≤ j → j ≤ i →
        atF (dxList (high.map FVal.fin) (low.map FVal.fin) (close.map FVal.fin) period) j
          ≠ FVal.nan) →
      atF (adxLine (high.map FVal.fin) (low.map FVal.fin) (close.map FVal.fin) period) i
        ≠ FVal.nan) := by
  have hH' : (high.map FVal.fin).length = (close.map FVal.fin).length := by simp [hH]
  have hL' : (low.map FVal.fin).length = (close.map FVal.fin).length := by simp [hL]
  refine ⟨?_, ?_, ?_⟩
  · intro i hi hip
    exact ⟨plusDi_nan_lt_period _ _ _ period hp hH' hL' i (by simpa using hi) hip,
      minusDi_nan_lt_period _ _ _ period hp hH' hL' i (by simpa using hi) hip⟩
  · intro i hi hip
    exact adxLine_nan_lt _ _ _ period hp hH' hL' i (by simpa using hi) hip
  · intro i hi h2p hnd
    have hidx : i < (dxList (high.map FVal.fin) (low.map FVal.fin)
        (close.map FVal.fin) period).length := by
      rw [length_dxList _ _ _ _ hH' hL']; simpa using hi
    rw [adxLine, rollingMean, atF_rollingOp _ _ _ _ hidx,
      if_neg (by omega : ¬(i + 1 < period))]
    have hw2 : period ≤ i + 1 := by omega
    set dxl := dxList (high.map FVal.fin) (low.map FVal.fin) (close.map FVal.fin) period
      with hdxl
    have hnonan : (windowSlice dxl period i).any FVal.isNan = false := by
      by_contra habs
      rw [Bool.not_eq_false, List.any_eq_true] at habs
      obtain ⟨x, hxmem, hxnan⟩ := habs
      obtain ⟨k, hk, hkx⟩ := List.mem_iff_getElem.mp hxmem
      have hklen : k < period := by
        rw [length_windowSlice dxl period i hidx hw2] at hk
        exact hk
      have hxval : atF dxl (i + 1 - period + k) = x := by
        rw [← atF_windowSlice dxl period i k hidx hw2 hklen,
          atF_eq_getElem _ _ hk, hkx]
      have hxn : x = FVal.nan := (FVal.isNan_iff x).mp hxnan
      exact hnd (i + 1 - period + k) (by omega) (by omega) (hxval.trans hxn)
    rw [meanAgg, if_neg (by simp [hnonan])]
    have hallfin : ∀ x ∈ windowSlice dxl period i, ∃ q, x = FVal.fin q := by
      intro x hx
      have hxdx : x ∈ dxl := mem_of_mem_windowSlice dxl period i hx
      obtain ⟨j, hj, hjx⟩ := List.mem_iff_getElem.mp hxdx
      have hjN : j < close.length := by
        rw [length_dxList _ _ _ _ hH' hL'] at hj; simpa using hj
      have hxat : atF dxl j = x := by rw [atF_eq_getElem _ _ hj, hjx]
      rcases dx_shape_at high low close period hp hH hL hwf j hjN with hnanj | ⟨q, hq⟩
      · exfalso
        rw [hxat] at hnanj
        subst hnanj
        have : (windowSlice dxl period i).any FVal.isNan = true := by
          rw [List.any_eq_true]; exact ⟨FVal.nan, hx, rfl⟩
        rw [this] at hnonan; cases hnonan
      · exact ⟨q, by rw [← hxat, hq]⟩
    obtain ⟨s, hsum⟩ := sumF_all_fin _ hallfin
    rw [hsum, FVal.div_fin_fin _ _ (by exact_mod_cast Nat.pos_iff_ne_zero.mp hp)]
    simp

/-- Witness for C6 at `high = [1, 2]`, `low = [0, 1]`, `close = [1, 2]`,
`period = 1`. -/
theorem adx_compounded_warmup_witness :
    (∀ i, i < 2 → i < 1 →
      atF (plusDi (([1, 2] : List ℚ).map FVal.fin) (([0, 1] : List ℚ).map FVal.fin)
        (([1, 2] : List ℚ).map FVal.fin) 1) i = FVal.nan ∧
      atF (minusDi (([1, 2] : List ℚ).map FVal.fin) (([0, 1] : List ℚ).map FVal.fin)
        (([1, 2] : List ℚ).map FVal.fin) 1) i = FVal.nan) ∧
    (∀ i, i < 2 → i < 2 * 1 - 1 →
      atF (adxLine (([1, 2] : List ℚ).map FVal.fin) (([0, 1] : List ℚ).map FVal.fin)
        (([1, 2] : List ℚ).map FVal.fin) 1) i = FVal.nan) ∧
    (∀ i, i < 2 → 2 * 1 - 1 ≤ i →
      (∀ j, i + 1 - 1 ≤ j → j ≤ i →
        atF (dxList (([1, 2] : List ℚ).map FVal.fin) (([0, 1] : List ℚ).map FVal.fin)
          (([1, 2] : List ℚ).map FVal.fin) 1) j ≠ FVal.nan) →
      atF (adxLine (([1, 2] : List ℚ).map FVal.fin) (([0, 1] : List ℚ).map FVal.fin)
        (([1, 2] : List ℚ).map FVal.fin) 1) i ≠ FVal.nan) := by
  exact adx_compounded_warmup [1, 2] [0, 1] [1, 2] 1 (le_refl 1) (by simp) (by simp)
    (by intro j hj
        simp only [List.length_cons, List.length_nil] at hj
        interval_cases j <;> norm_num [List.getD_cons_zero, List.getD_cons_succ])

/-! ## Refinement: code vs spec formulation of `minus_di` (claim C7) -/

/-- The SPEC's formulation of step 1 for `minus_dm`:
`minus_dm[i] = max(low[i-1] - low[i], 0)` (a magnitude; NaN at position 0). -/
def minusDmSpec (low : List FVal) : List FVal :=
  (diff low).map (fun d => clipLower0 (FVal.neg d))

/-- The SPEC's formulation of step 4 for `minus_di`:
`minus_di = 100 * sma(minus_dm_spec, period) / atr`. -/
def minusDiSpec (high low close : List FVal) (period : ℕ) : List FVal :=
  List.zipWith (fun m a => FVal.div (FVal.mul (FVal.fin 100) m) a)
    (rollingMean period (minusDmSpec low)) (atrList high low close period)

theorem minusDm_eq_neg_spec (low : List ℚ) :
    minusDm (low.map FVal.fin) = (minusDmSpec (low.map FVal.fin)).map FVal.neg := by
  rw [minusDm, minusDmSpec, List.map_map]
  apply List.map_congr_left
  intro d hd
  rcases diff_map_fin_entries low d hd with rfl | ⟨q, rfl⟩
  · simp [FVal.fgt, FVal.flt, clipLower0, FVal.neg]
  · by_cases hq : 0 < q
    · have h1 : max (-q) 0 = 0 := max_eq_right (by linarith)
      simp [FVal.fgt, FVal.flt, hq, clipLower0, FVal.neg, Function.comp, h1]
    · have h1 : max (-q) 0 = -q := max_eq_left (by linarith)
      simp [FVal.fgt, FVal.flt, hq, clipLower0, FVal.neg, Function.comp, h1]

theorem sumF_map_neg (l : List FVal) : sumF (l.map FVal.neg) = FVal.neg (sumF l) := by
  induction l with
  | nil => simp [sumF, FVal.neg]
  | cons x rest ih =>
      simp only [List.map_cons, sumF, List.foldr] at ih ⊢
      rw [ih, FVal.neg_add]

theorem any_isNan_map_neg (l : List FVal) :
    (l.map FVal.neg).any FVal.isNan = l.any FVal.isNan := by
  simp [List.any_map, Function.comp_def, FVal.isNan_neg]

theorem div_neg_num (x : FVal) (c : ℚ) :
    FVal.div (FVal.neg x) (FVal.fin c) = FVal.neg (FVal.div x (FVal.fin c)) := by
  cases x with
  | nan => simp [FVal.neg, FVal.div]
  | pinf => by_cases hc : 0 ≤ c <;> simp [FVal.neg, FVal.div, hc]
  | ninf => by_cases hc : 0 ≤ c <;> simp [FVal.neg, FVal.div, hc]
  | fin a =>
      by_cases hc : c = 0
      · subst hc
        rcases lt_trichotomy a 0 with ha | ha | ha
        · simp [FVal.div, FVal.neg, ha.ne, not_lt.mpr ha.le, neg_pos.mpr ha, neg_ne_zero.mpr ha.ne]
        · subst ha; simp [FVal.div, FVal.neg]
        · simp [FVal.div, FVal.neg, ha.ne.symm, ha, neg_ne_zero.mpr ha.ne.symm,
            not_lt.mpr (neg_nonpos_of_nonneg ha.le)]
      · simp [FVal.div, FVal.neg, hc, neg_div]

theorem rollingMean_map_neg (w : ℕ) (xs : List FVal) :
    rollingMean w (xs.map FVal.neg) = (rollingMean w xs).map FVal.neg := by
  simp only [rollingMean, rollingOp, List.length_map, List.map_map]
  apply List.map_congr_left
  intro i hi
  simp only [Function.comp]
  by_cases hwu : i + 1 < w
  · simp [hwu, FVal.neg]
  · rw [if_neg hwu, if_neg hwu]
    rw [windowSlice_map, meanAgg, meanAgg, any_isNan_map_neg]
    by_cases hnan : (windowSlice xs w i).any FVal.isNan = true
    · simp [hnan, FVal.neg]
    · rw [if_neg (by simpa using hnan), if_neg (by simpa using hnan),
        sumF_map_neg, div_neg_num]

theorem minusDmSpec_entries (qs : List ℚ) :
    ∀ x ∈ minusDmSpec (qs.map FVal.fin), x = FVal.nan ∨ ∃ q, 0 ≤ q ∧ x = FVal.fin q := by
  intro x hx
  obtain ⟨y, hy, rfl⟩ := List.mem_map.mp hx
  rcases diff_map_fin_entries qs y hy with rfl | ⟨q, rfl⟩
  · left; simp [FVal.neg, clipLower0]
  · right; exact ⟨max (-q) 0, le_max_right _ 0, by simp [FVal.neg, clipLower0]⟩

/-- C7: at every position where `atr` is a positive finite value, the code's
`minus_di` (negative-clipped diff, rolling mean, divide by atr, absolute value
last) equals the spec's magnitude formulation
`100 * sma(max(low[i-1]-low[i], 0), period) / atr`. -/
theorem minusDi_code_eq_spec (high low close : List ℚ) (period : ℕ) (hp : 1 ≤ period)
    (hH : high.length = close.length) (hL : low.length = close.length)
    (i : ℕ) (hi : i < close.length) (a : ℚ)
    (hatr : atF (atrList (high.map FVal.fin) (low.map FVal.fin) (close.map FVal.fin) period) i
      = FVal.fin a) (hapos : 0 < a) :
    atF (minusDi (high.map FVal.fin) (low.map FVal.fin) (close.map FVal.fin) period) i
      = atF (minusDiSpec (high.map FVal.fin) (low.map FVal.fin) (close.map FVal.fin) period) i := by
  have hH' : (high.map FVal.fin).length = (close.map FVal.fin).length := by simp [hH]
  have hL' : (low.map FVal.fin).length = (close.map FVal.fin).length := by simp [hL]
  have hlenm : i < (rollingMean period (minusDm (low.map FVal.fin))).length := by
    rw [rollingMean, length_rollingOp, length_minusDm]; simp [hL]; omega
  have hlens : i < (rollingMean period (minusDmSpec (low.map FVal.fin))).length := by
    rw [rollingMean, length_rollingOp, minusDmSpec, List.length_map, length_diff]
    simp [hL]; omega
  have hlena : i < (atrList (high.map FVal.fin) (low.map FVal.fin)
      (close.map FVal.fin) period).length := by
    rw [length_atrList _ _ _ _ hH' hL']; simpa using hi
  rw [minusDi, minusDiSpec, atF_zipWith _ _ _ i hlenm hlena, atF_zipWith _ _ _ i hlens hlena]
  rw [minusDm_eq_neg_spec, rollingMean_map_neg,
    atF_map _ _ _ (by simpa using hlens), hatr]
  have hshape := rollingMean_shape_nonneg period (minusDmSpec (low.map FVal.fin)) hp
    (minusDmSpec_entries low) i (by
      rw [minusDmSpec, List.length_map, length_diff]
      simp only [List.length_map]
      omega)
  rcases hshape with hnanM | ⟨m, hm, hM⟩
  · rw [hnanM]
    simp [FVal.neg, FVal.div, FVal.mul, FVal.fabs]
  · rw [hM]
    simp only [FVal.neg]
    simp only [FVal.mul_fin_fin, FVal.div_fin_fin _ _ (ne_of_gt hapos)]
    simp only [FVal.fabs, FVal.fin.injEq]
    have hma : 0 ≤ m / a := div_nonneg hm hapos.le
    have hneg : (100 : ℚ) * (-m / a) ≤ 0 := by
      rw [neg_div]
      nlinarith
    rw [abs_of_nonpos hneg]
    field_simp

/-- Witness for C7 at `high = [1, 2]`, `low = [0, 1]`, `close = [1, 2]`,
`period = 1`, position 1 (atr = 1 there). -/
theorem minusDi_code_eq_spec_witness :
    atF (minusDi (([1, 2] : List ℚ).map FVal.fin) (([0, 1] : List ℚ).map FVal.fin)
        (([1, 2] : List ℚ).map FVal.fin) 1) 1
      = atF (minusDiSpec (([1, 2] : List ℚ).map FVal.fin) (([0, 1] : List ℚ).map FVal.fin)
        (([1, 2] : List ℚ).map FVal.fin) 1) 1 :=
  minusDi_code_eq_spec [1, 2] [0, 1] [1, 2] 1 (le_refl 1) (by simp) (by simp) 1 (by norm_num)
    1
    (by norm_num [atrList, trList, rollingMean, rollingOp, windowSlice, meanAgg, sumF,
      zipW3, shift, diff, atF, maxSkipna, FVal.sub, FVal.add, FVal.neg, FVal.fabs,
      FVal.div, FVal.isNan, FVal.fmax, List.range_succ, List.filter])
    (by norm_num)

/-! ## 0/0 degeneracies return the NaN sentinel (claim C4) -/

theorem atF_diff (xs : List FVal) (j : ℕ) (h1 : 1 ≤ j) (h2 : j < xs.length) :
    atF (diff xs) j = FVal.sub (atF xs j) (atF xs (j - 1)) := by
  cases xs with
  | nil => simp at h2
  | cons x rest =>
      obtain ⟨j', rfl⟩ : ∃ j', j = j' + 1 := ⟨j - 1, by omega⟩
      have hj1 : j' < rest.length := by simpa using h2
      have hj2 : j' < (x :: rest).length := by simp; omega
      simp only [diff, atF, List.getD_cons_succ, Nat.add_sub_cancel]
      rw [← atF, ← atF, atF_zipWith _ _ _ j' hj1 hj2]
      rfl

theorem sumF_const_zero (l : List FVal) (h : ∀ x ∈ l, x = FVal.fin 0) :
    sumF l = FVal.fin 0 := by
  induction l with
  | nil => rfl
  | cons x rest ih =>
      rw [h x (by simp)] at *
      have := ih (fun y hy => h y (by simp [hy]))
      simp only [sumF, List.foldr] at this ⊢
      rw [this, FVal.add_fin_fin, add_zero]

theorem rollingMean_const_zero (w : ℕ) (xs : List FVal) (i : ℕ) (hw : 1 ≤ w)
    (hi : i < xs.length) (hfull : w ≤ i + 1)
    (hval : ∀ j, i + 1 - w ≤ j → j ≤ i → atF xs j = FVal.fin 0) :
    atF (rollingMean w xs) i = FVal.fin 0 := by
  rw [rollingMean, atF_rollingOp _ _ _ _ hi, if_neg (by omega)]
  have hslice : ∀ x ∈ windowSlice xs w i, x = FVal.fin 0 := by
    intro x hx
    obtain ⟨k, hk, hkx⟩ := List.mem_iff_getElem.mp hx
    have hklen : k < w := by
      rw [length_windowSlice xs w i hi hfull] at hk; exact hk
    have := atF_windowSlice xs w i k hi hfull hklen
    rw [atF_eq_getElem _ _ hk, hkx] at this
    rw [this]
    exact hval (i + 1 - w + k) (by omega) (by omega)
  have hnonan : (windowSlice xs w i).any FVal.isNan = false := by
    by_contra habs
    rw [Bool.not_eq_false, List.any_eq_true] at habs
    obtain ⟨x, hxmem, hxnan⟩ := habs
    rw [hslice x hxmem] at hxnan
    cases hxnan
  rw [meanAgg, if_neg (by simp [hnonan]), sumF_const_zero _ hslice,
    FVal.div_fin_fin _ _ (by exact_mod_cast Nat.pos_iff_ne_zero.mp hw), zero_div]

/-- In `rsi`, a flat trailing window (all prices equal back to `i - period`)
makes `avg_gain = avg_loss = 0`, so `rs = 0/0` and the RSI output is the NaN
sentinel at that position — no exception, just NaN. -/
theorem rsi_flat_window_nan (prices : List ℚ) (period : ℕ) (hp : 1 ≤ period)
    (i : ℕ) (hpi : period ≤ i) (hi : i < prices.length)
    (hflat : ∀ j, i - period ≤ j → j ≤ i → prices.getD j 0 = prices.getD (i - period) 0) :
    atF (rsi (prices.map FVal.fin) period) i = FVal.nan := by
  have hi' : i < (prices.map FVal.fin).length := by simpa using hi
  have hdiff0 : ∀ j, i + 1 - period ≤ j → j ≤ i →
      atF (diff (prices.map FVal.fin)) j = FVal.fin 0 := by
    intro j hj1 hj2
    have hj0 : 1 ≤ j := by omega
    rw [atF_diff _ j hj0 (by simpa using (by omega : j < prices.length)),
      atF_map_fin _ _ (by omega), atF_map_fin _ _ (by omega), FVal.sub_fin_fin]
    rw [hflat j (by omega) (by omega), hflat (j - 1) (by omega) (by omega), sub_self]
  have hgain : atF (avgGain (prices.map FVal.fin) period) i = FVal.fin 0 := by
    rw [avgGain]
    apply rollingMean_const_zero period _ i hp
      (by rw [List.length_map, length_diff]; simpa using hi) (by omega)
    intro j hj1 hj2
    rw [atF_map _ _ _ (by rw [length_diff]; simpa using (by omega : j < prices.length)),
      hdiff0 j hj1 hj2]
    simp [clipLower0]
  have hloss : atF (avgLoss (prices.map FVal.fin) period) i = FVal.fin 0 := by
    rw [avgLoss]
    apply rollingMean_const_zero period _ i hp
      (by rw [List.length_map, length_diff]; simpa using hi) (by omega)
    intro j hj1 hj2
    rw [atF_map _ _ _ (by rw [length_diff]; simpa using (by omega : j < prices.length)),
      hdiff0 j hj1 hj2]
    simp [clipUpper0, FVal.neg]
  rw [atF_rsi _ _ _ hi', hgain, hloss, FVal.div_fin_zero_zero, FVal.add_nan_right,
    FVal.div_nan_right, FVal.sub_nan_right]

theorem foldr_fmin_shape (qs : List ℚ) :
    ((qs.map FVal.fin).foldr FVal.fmin FVal.pinf = FVal.pinf ∧ qs = []) ∨
      ∃ d, (qs.map FVal.fin).foldr FVal.fmin FVal.pinf = FVal.fin d ∧ ∀ q ∈ qs, d ≤ q := by
  induction qs with
  | nil => exact Or.inl ⟨rfl, rfl⟩
  | cons a rest ih =>
      rcases ih with ⟨hR, hrest⟩ | ⟨d, hR, hbound⟩
      · subst hrest
        exact Or.inr ⟨a, rfl, by intro q hq; simp at hq; exact le_of_eq hq.symm⟩
      · refine Or.inr ⟨min a d, ?_, ?_⟩
        · simp only [List.map_cons, List.foldr]
          rw [hR]
          rfl
        · intro q hq
          rcases List.mem_cons.mp hq with hq1 | hq'
          · rw [hq1]
            exact min_le_left a d
          · exact le_trans (min_le_right a d) (hbound q hq')

theorem foldr_fmax_shape (qs : List ℚ) :
    ((qs.map FVal.fin).foldr FVal.fmax FVal.ninf = FVal.ninf ∧ qs = []) ∨
      ∃ d, (qs.map FVal.fin).foldr FVal.fmax FVal.ninf = FVal.fin d ∧ ∀ q ∈ qs, q ≤ d := by
  induction qs with
  | nil => exact Or.inl ⟨rfl, rfl⟩
  | cons a rest ih =>
      rcases ih with ⟨hR, hrest⟩ | ⟨d, hR, hbound⟩
      · subst hrest
        exact Or.inr ⟨a, rfl, by intro q hq; simp at hq; exact le_of_eq hq⟩
      · refine Or.inr ⟨max a d, ?_, ?_⟩
        · simp only [List.map_cons, List.foldr]
          rw [hR]
          rfl
        · intro q hq
          rcases List.mem_cons.mp hq with hq1 | hq'
          · rw [hq1]
            exact le_max_left a d
          · exact le_trans (hbound q hq') (le_max_right a d)

theorem getD_take_drop (qs : List ℚ) (w i k : ℕ) (h : i < qs.length)
    (hw : w ≤ i + 1) (hk : k < w) :
    ((qs.take (i + 1)).drop (i + 1 - w)).getD k 0 = qs.getD (i + 1 - w + k) 0 := by
  have hlt : i + 1 - w + k < i + 1 := by omega
  simp [List.getD_eq_getElem?_getD, List.getElem?_drop, List.getElem?_take_of_lt hlt]

theorem getD_mem_q (l : List ℚ) (k : ℕ) (h : k < l.length) : l.getD k 0 ∈ l := by
  rw [List.getD_eq_getElem?_getD, List.getElem?_eq_getElem h]
  exact List.getElem_mem h

theorem rollingMin_le_last (qs : List ℚ) (w i : ℕ) (c : ℚ) (hw : 1 ≤ w)
    (hi : i < qs.length) (hfull : w ≤ i + 1)
    (h : atF (rollingMin w (qs.map FVal.fin)) i = FVal.fin c) : c ≤ qs.getD i 0 := by
  rw [rollingMin, atF_rollingOp _ _ _ _ (by simpa using hi), if_neg (by omega),
    windowSlice_map_fin, minAgg, any_isNan_map_fin] at h
  simp only [Bool.false_eq_true, if_false] at h
  rcases foldr_fmin_shape ((qs.take (i + 1)).drop (i + 1 - w)) with ⟨hR, -⟩ | ⟨d, hR, hbound⟩
  · rw [hR] at h; cases h
  · rw [hR] at h
    cases h
    apply hbound
    have hlen : ((qs.take (i + 1)).drop (i + 1 - w)).length = w := by
      simp only [List.length_drop, List.length_take]; omega
    have := getD_take_drop qs w i (w - 1) hi hfull (by omega)
    rw [(by omega : i + 1 - w + (w - 1) = i)] at this
    rw [← this]
    exact getD_mem_q _ (w - 1) (by omega)

theorem rollingMax_ge_last (qs : List ℚ) (w i : ℕ) (c : ℚ) (hw : 1 ≤ w)
    (hi : i < qs.length) (hfull : w ≤ i + 1)
    (h : atF (rollingMax w (qs.map FVal.fin)) i = FVal.fin c) : qs.getD i 0 ≤ c := by
  rw [rollingMax, atF_rollingOp _ _ _ _ (by simpa using hi), if_neg (by omega),
    windowSlice_map_fin, maxAgg, any_isNan_map_fin] at h
  simp only [Bool.false_eq_true, if_false] at h
  rcases foldr_fmax_shape ((qs.take (i + 1)).drop (i + 1 - w)) with ⟨hR, -⟩ | ⟨d, hR, hbound⟩
  · rw [hR] at h; cases h
  · rw [hR] at h
    cases h
    apply hbound
    have hlen : ((qs.take (i + 1)).drop (i + 1 - w)).length = w := by
      simp only [List.length_drop, List.length_take]; omega
    have := getD_take_drop qs w i (w - 1) hi hfull (by omega)
    rw [(by omega : i + 1 - w + (w - 1) = i)] at this
    rw [← this]
    exact getD_mem_q _ (w - 1) (by omega)

/-- In `stochastic`, a zero-range window (`high_max == low_min`) over
well-formed bars makes `%K = (100 * 0) / 0 = 0/0`, the NaN sentinel. -/
theorem percentK_degenerate_nan (high low close : List ℚ) (k_window : ℕ)
    (hkw : 1 ≤ k_window) (hH : high.length = close.length) (hL : low.length = close.length)
    (i : ℕ) (hi : i < close.length) (hfull : k_window ≤ i + 1) (c : ℚ)
    (hmax : atF (rollingMax k_window (high.map FVal.fin)) i = FVal.fin c)
    (hmin : atF (rollingMin k_window (low.map FVal.fin)) i = FVal.fin c)
    (hwf : low.getD i 0 ≤ close.getD i 0 ∧ close.getD i 0 ≤ high.getD i 0) :
    atF (percentK (high.map FVal.fin) (low.map FVal.fin) (close.map FVal.fin) k_window) i
      = FVal.nan := by
  have hclose : close.getD i 0 = c := by
    have h1 := rollingMin_le_last low k_window i c hkw (by omega) hfull hmin
    have h2 := rollingMax_ge_last high k_window i c hkw (by omega) hfull hmax
    have := hwf.1
    have := hwf.2
    linarith
  have hlen1 : i < (close.map FVal.fin).length := by simpa using hi
  have hlen2 : i < (rollingMin k_window (low.map FVal.fin)).length := by
    rw [rollingMin, length_rollingOp]; simp [hL]; omega
  have hlen3 : i < (rollingMax k_window (high.map FVal.fin)).length := by
    rw [rollingMax, length_rollingOp]; simp [hH]; omega
  rw [percentK, atF_zipWith _ _ _ i (by simp [hL, hH]; constructor <;> omega)
    (by simp [hL, hH]; constructor <;> omega)]
  rw [atF_zipWith _ _ _ i hlen1 hlen2, atF_zipWith _ _ _ i hlen3 hlen2]
  rw [atF_map_fin close i hi, hmin, hmax, hclose, FVal.sub_fin_fin, sub_self,
    FVal.mul_fin_fin, mul_zero, FVal.div_fin_zero_zero]

/-- In `adx`, `plus_di + minus_di == 0` (both zero) makes
`dx = (|0-0| / 0) * 100 = (0/0) * 100`, the NaN sentinel. -/
theorem dx_zero_di_nan (high low close : List FVal) (period : ℕ) (i : ℕ)
    (hH : high.length = close.length) (hL : low.length = close.length)
    (hi : i < close.length)
    (hpd : atF (plusDi high low close period) i = FVal.fin 0)
    (hmd : atF (minusDi high low close period) i = FVal.fin 0) :
    atF (dxList high low close period) i = FVal.nan := by
  rw [dxList, atF_zipWith _ _ _ i
    (by rw [length_plusDi high low close period hH hL]; exact hi)
    (by rw [length_minusDi high low close period hH hL]; exact hi), hpd, hmd,
    FVal.sub_fin_fin, sub_self, FVal.add_fin_fin, add_zero]
  simp [FVal.fabs, FVal.div_fin_zero_zero, FVal.mul_nan_left]

theorem length_percentK (high low close : List FVal) (kw : ℕ)
    (hH : high.length = close.length) (hL : low.length = close.length) :
    (percentK high low close kw).length = close.length := by
  simp [percentK, rollingMin, rollingMax, length_rollingOp, hH, hL]

/-- C4: the 0/0 degeneracies (flat RSI window, zero-range stochastic window,
`plus_di + minus_di = 0` in adx) each produce the NaN sentinel at that
position while the functions still return full-length series (totality of the
embedding: no exception exists), and a NaN inside any window of a downstream
rolling mean makes that output position NaN (NaN flows through as data). -/
theorem nan_sentinel_on_zero_div :
    (∀ (prices : List FVal) (period : ℕ), (rsi prices period).length = prices.length) ∧
    (∀ (high low close : List FVal) (kw dw : ℕ),
      high.length = close.length → low.length = close.length →
      (percentK high low close kw).length = close.length ∧
      (rollingMean dw (percentK high low close kw)).length = close.length) ∧
    (∀ (high low close : List FVal) (period : ℕ),
      high.length = close.length → low.length = close.length →
      (adxLine high low close period).length = close.length ∧
      (plusDi high low close period).length = close.length ∧
      (minusDi high low close period).length = close.length) ∧
    (∀ (prices : List ℚ) (period : ℕ), 1 ≤ period → ∀ i, period ≤ i → i < prices.length →
      (∀ j, i - period ≤ j → j ≤ i → prices.getD j 0 = prices.getD (i - period) 0) →
      atF (rsi (prices.map FVal.fin) period) i = FVal.nan) ∧
    (∀ (high low close : List ℚ) (kw : ℕ), 1 ≤ kw →
      high.length = close.length → low.length = close.length →
      ∀ i, i < close.length → kw ≤ i + 1 → ∀ c : ℚ,
      atF (rollingMax kw (high.map FVal.fin)) i = FVal.fin c →
      atF (rollingMin kw (low.map FVal.fin)) i = FVal.fin c →
      low.getD i 0 ≤ close.getD i 0 ∧ close.getD i 0 ≤ high.getD i 0 →
      atF (percentK (high.map FVal.fin) (low.map FVal.fin) (close.map FVal.fin) kw) i
        = FVal.nan) ∧
    (∀ (high low close : List FVal) (period i : ℕ),
      high.length = close.length → low.length = close.length → i < close.length →
      atF (plusDi high low close period) i = FVal.fin 0 →
      atF (minusDi high low close period) i = FVal.fin 0 →
      atF (dxList high low close period) i = FVal.nan) ∧
    (∀ (w : ℕ) (xs : List FVal) (i j : ℕ), 1 ≤ w → j ≤ i → i < j + w → i < xs.length →
      atF xs j = FVal.nan → atF (rollingMean w xs) i = FVal.nan) := by
  refine ⟨?_, ?_, ?_, ?_, ?_, ?_, ?_⟩
  · exact fun prices period => length_rsi prices period
  · intro high low close kw dw hH hL
    exact ⟨length_percentK high low close kw hH hL,
      by rw [rollingMean, length_rollingOp]; exact length_percentK high low close kw hH hL⟩
  · intro high low close period hH hL
    exact ⟨length_adxLine high low close period hH hL,
      length_plusDi high low close period hH hL,
      length_minusDi high low close period hH hL⟩
  · intro prices period hp i hpi hi hflat
    exact rsi_flat_window_nan prices period hp i hpi hi hflat
  · intro high low close kw hkw hH hL i hi hfull c hmax hmin hwf
    exact percentK_degenerate_nan high low close kw hkw hH hL i hi hfull c hmax hmin hwf
  · intro high low close period i hH hL hi hpd hmd
    exact dx_zero_di_nan high low close period i hH hL hi hpd hmd
  · intro w xs i j hw hj hiw hi hnan
    exact rollingMean_nan_in_window w xs i j hw hj hiw hi hnan

/-- Witness for C4: each degenerate conjunct instantiated at a concrete input. -/
theorem nan_sentinel_on_zero_div_witness :
    (rsi [FVal.fin 5] 14).length = 1 ∧
    ((percentK [FVal.fin 1] [FVal.fin 1] [FVal.fin 1] 1).length = 1 ∧
      (rollingMean 1 (percentK [FVal.fin 1] [FVal.fin 1] [FVal.fin 1] 1)).length = 1) ∧
    ((adxLine [FVal.fin 1] [FVal.fin 1] [FVal.fin 1] 1).length = 1 ∧
      (plusDi [FVal.fin 1] [FVal.fin 1] [FVal.fin 1] 1).length = 1 ∧
      (minusDi [FVal.fin 1] [FVal.fin 1] [FVal.fin 1] 1).length = 1) ∧
    atF (rsi (([1, 1, 1] : List ℚ).map FVal.fin) 1) 1 = FVal.nan ∧
    atF (percentK (([1, 1] : List ℚ).map FVal.fin) (([1, 1] : List ℚ).map FVal.fin)
      (([1, 1] : List ℚ).map FVal.fin) 1) 0 = FVal.nan ∧
    atF (dxList [FVal.fin 1, FVal.fin 1] [FVal.fin 0, FVal.fin 0]
      [FVal.fin 1, FVal.fin 1] 1) 1 = FVal.nan ∧
    atF (rollingMean 1 [FVal.nan]) 0 = FVal.nan := by
  refine ⟨nan_sentinel_on_zero_div.1 [FVal.fin 5] 14,
    nan_sentinel_on_zero_div.2.1 [FVal.fin 1] [FVal.fin 1] [FVal.fin 1] 1 1 rfl rfl,
    nan_sentinel_on_zero_div.2.2.1 [FVal.fin 1] [FVal.fin 1] [FVal.fin 1] 1 rfl rfl,
    nan_sentinel_on_zero_div.2.2.2.1 [1, 1, 1] 1 (le_refl 1) 1 (le_refl 1) (by norm_num)
      (by intro j h1 h2
          interval_cases j <;> rfl),
    nan_sentinel_on_zero_div.2.2.2.2.1 [1, 1] [1, 1] [1, 1] 1 (le_refl 1) rfl rfl 0
      (by norm_num) (le_refl 1) 1
      (by norm_num [rollingMax, rollingOp, windowSlice, maxAgg, atF, FVal.isNan,
        FVal.fmax, List.range_succ])
      (by norm_num [rollingMin, rollingOp, windowSlice, minAgg, atF, FVal.isNan,
        FVal.fmin, List.range_succ])
      (by norm_num),
    nan_sentinel_on_zero_div.2.2.2.2.2.1 [FVal.fin 1, FVal.fin 1] [FVal.fin 0, FVal.fin 0]
      [FVal.fin 1, FVal.fin 1] 1 1 rfl rfl (by norm_num)
      (by norm_num [plusDi, plusDm, atrList, trList, rollingMean, rollingOp, windowSlice,
        meanAgg, sumF, zipW3, shift, diff, atF, maxSkipna, FVal.sub, FVal.add, FVal.neg,
        FVal.fabs, FVal.div, FVal.mul, FVal.isNan, FVal.fmax, FVal.flt, FVal.fgt,
        List.range_succ, List.filter])
      (by norm_num [minusDi, minusDm, atrList, trList, rollingMean, rollingOp, windowSlice,
        meanAgg, sumF, zipW3, shift, diff, atF, maxSkipna, FVal.sub, FVal.add, FVal.neg,
        FVal.fabs, FVal.div, FVal.mul, FVal.isNan, FVal.fmax, FVal.flt, FVal.fgt,
        List.range_succ, List.filter]),
    nan_sentinel_on_zero_div.2.2.2.2.2.2 1 [FVal.nan] 0 0 (le_refl 1) (le_refl 0)
      (by norm_num) (by norm_num) rfl⟩

/-! ## VWAP (claim C8) -/

/-- Exact partial sums with carried accumulator (the all-finite case of
`cumsum`). -/
def psums (a : ℚ) : List ℚ → List ℚ
  | [] => []
  | q :: rest => (a + q) :: psums (a + q) rest

theorem cumsumAux_map_fin (a : ℚ) (qs : List ℚ) :
    cumsumAux (FVal.fin a) (qs.map FVal.fin) = (psums a qs).map FVal.fin := by
  induction qs generalizing a with
  | nil => rfl
  | cons q rest ih =>
      simp only [List.map_cons, cumsumAux, FVal.isNan, Bool.false_eq_true, if_false, psums,
        FVal.add_fin_fin]
      rw [ih]

theorem length_psums (a : ℚ) (qs : List ℚ) : (psums a qs).length = qs.length := by
  induction qs generalizing a with
  | nil => rfl
  | cons q rest ih => simp [psums, ih]

theorem psums_getD (a : ℚ) (qs : List ℚ) :
    ∀ i, i < qs.length → (psums a qs).getD i 0 = a + (qs.take (i + 1)).sum := by
  induction qs generalizing a with
  | nil => intro i hi; simp at hi
  | cons q rest ih =>
      intro i hi
      cases i with
      | zero => simp [psums]
      | succ i' =>
          simp only [psums, List.getD_cons_succ, List.take_succ_cons, List.sum_cons]
          rw [ih (a + q) i' (by simpa using hi)]
          ring

theorem atF_cumsum_map_fin (qs : List ℚ) (i : ℕ) (hi : i < qs.length) :
    atF (cumsum (qs.map FVal.fin)) i = FVal.fin ((qs.take (i + 1)).sum) := by
  rw [cumsum, cumsumAux_map_fin, atF_map_fin _ _ (by rw [length_psums]; exact hi),
    psums_getD 0 qs i hi, zero_add]

theorem zipWith_mul_map_fin (cs : List ℚ) :
    ∀ vs : List ℚ, List.zipWith FVal.mul (cs.map FVal.fin) (vs.map FVal.fin)
      = (List.zipWith (fun a b => a * b) cs vs).map FVal.fin := by
  induction cs with
  | nil => intro vs; simp
  | cons c rest ih =>
      intro vs
      cases vs with
      | nil => simp
      | cons v vrest => simp [FVal.mul_fin_fin, ih vrest]

theorem length_cumsumAux (acc : FVal) (xs : List FVal) :
    (cumsumAux acc xs).length = xs.length := by
  induction xs generalizing acc with
  | nil => rfl
  | cons x rest ih =>
      by_cases hx : FVal.isNan x = true <;> simp [cumsumAux, hx, ih]

theorem list_sum_zero_of_nonneg (l : List ℚ) (h : ∀ x ∈ l, 0 ≤ x) (hs : l.sum = 0) :
    ∀ x ∈ l, x = 0 := by
  induction l with
  | nil => intro x hx; simp at hx
  | cons a rest ih =>
      have ha : 0 ≤ a := h a (by simp)
      have hrest : 0 ≤ rest.sum := List.sum_nonneg (fun x hx => h x (by simp [hx]))
      simp only [List.sum_cons] at hs
      have ha0 : a = 0 := by linarith
      have hr0 : rest.sum = 0 := by linarith
      intro x hx
      rcases List.mem_cons.mp hx with rfl | hx'
      · exact ha0
      · exact ih (fun y hy => h y (by simp [hy])) hr0 x hx'

theorem sum_zipWith_mul_zero (cs : List ℚ) :
    ∀ vs : List ℚ, (∀ v ∈ vs, v = 0) →
      (List.zipWith (fun a b => a * b) cs vs).sum = 0 := by
  induction cs with
  | nil => intro vs h; simp
  | cons c rest ih =>
      intro vs h
      cases vs with
      | nil => simp
      | cons v vrest =>
          simp only [List.zipWith, List.sum_cons]
          rw [h v (by simp), mul_zero, ih vrest (fun y hy => h y (by simp [hy])), add_zero]

theorem sum_zipWith_mul_le (M : ℚ) (cs : List ℚ) :
    ∀ vs : List ℚ, cs.length = vs.length → (∀ v ∈ vs, 0 ≤ v) → (∀ c ∈ cs, c ≤ M) →
      (List.zipWith (fun a b => a * b) cs vs).sum ≤ M * vs.sum := by
  induction cs with
  | nil => intro vs hlen _ _; cases vs with
    | nil => simp
    | cons v vrest => simp at hlen
  | cons c rest ih =>
      intro vs hlen hv hc
      cases vs with
      | nil => simp at hlen
      | cons v vrest =>
          simp only [List.zipWith, List.sum_cons, mul_add]
          have h1 : c * v ≤ M * v :=
            mul_le_mul_of_nonneg_right (hc c (by simp)) (hv v (by simp))
          have h2 := ih vrest (by simpa using hlen) (fun y hy => hv y (by simp [hy]))
            (fun y hy => hc y (by simp [hy]))
          linarith

theorem sum_zipWith_mul_ge (m : ℚ) (cs : List ℚ) :
    ∀ vs : List ℚ, cs.length = vs.length → (∀ v ∈ vs, 0 ≤ v) → (∀ c ∈ cs, m ≤ c) →
      m * vs.sum ≤ (List.zipWith (fun a b => a * b) cs vs).sum := by
  induction cs with
  | nil => intro vs hlen _ _; cases vs with
    | nil => simp
    | cons v vrest => simp at hlen
  | cons c rest ih =>
      intro vs hlen hv hc
      cases vs with
      | nil => simp at hlen
      | cons v vrest =>
          simp only [List.zipWith, List.sum_cons, mul_add]
          have h1 : m * v ≤ c * v :=
            mul_le_mul_of_nonneg_right (hc c (by simp)) (hv v (by simp))
          have h2 := ih vrest (by simpa using hlen) (fun y hy => hv y (by simp [hy]))
            (fun y hy => hc y (by simp [hy]))
          linarith

theorem mem_take_imp {P : ℚ → Prop} (l : List ℚ) (n : ℕ)
    (h : ∀ j, j < n → j < l.length → P (l.getD j 0)) : ∀ x ∈ l.take n, P x := by
  intro x hx
  obtain ⟨j, hj, hjx⟩ := List.mem_iff_getElem.mp hx
  have hjn : j < n := by
    have := hj; simp [List.length_take] at this; omega
  have hjl : j < l.length := by
    have := hj; simp [List.length_take] at this; omega
  have : (l.take n)[j] = l.getD j 0 := by
    have h1 : (l.take n)[j]? = l[j]? := List.getElem?_take_of_lt hjn
    rw [List.getD_eq_getElem?_getD, ← h1, List.getElem?_eq_getElem hj]
    rfl
  rw [← hjx, this]
  exact h j hjn hjl

/-- C8: `vwap` equals `cumsum(close*volume) / cumsum(volume)` positionally, is
NaN exactly where cumulative volume is 0 (given nonnegative volumes), and
wherever cumulative volume is positive it lies between every lower and upper
bound of the closes seen so far (hence between their running min and max). -/
theorem vwap_cum_ratio_bounds (close vol : List ℚ) (hlen : vol.length = close.length)
    (hv : ∀ v ∈ vol, 0 ≤ v) :
    (vwap (close.map FVal.fin) (vol.map FVal.fin)).length = close.length ∧
    (∀ i, i < close.length →
      atF (vwap (close.map FVal.fin) (vol.map FVal.fin)) i =
        FVal.div (FVal.fin ((List.zipWith (fun a b => a * b) close vol).take (i + 1)).sum)
          (FVal.fin ((vol.take (i + 1)).sum)) ∧
      (atF (vwap (close.map FVal.fin) (vol.map FVal.fin)) i = FVal.nan ↔
        (vol.take (i + 1)).sum = 0) ∧
      (0 < (vol.take (i + 1)).sum →
        atF (vwap (close.map FVal.fin) (vol.map FVal.fin)) i =
          FVal.fin (((List.zipWith (fun a b => a * b) close vol).take (i + 1)).sum /
            (vol.take (i + 1)).sum) ∧
        (∀ M, (∀ j, j ≤ i → close.getD j 0 ≤ M) →
          ((List.zipWith (fun a b => a * b) close vol).take (i + 1)).sum /
            (vol.take (i + 1)).sum ≤ M) ∧
        (∀ m, (∀ j, j ≤ i → m ≤ close.getD j 0) →
          m ≤ ((List.zipWith (fun a b => a * b) close vol).take (i + 1)).sum /
            (vol.take (i + 1)).sum))) := by
  have hzlen : (List.zipWith (fun a b => a * b) close vol).length = close.length := by
    simp [hlen]
  have hlen1 : (cumsum (List.zipWith FVal.mul (close.map FVal.fin) (vol.map FVal.fin))).length
      = close.length := by
    rw [zipWith_mul_map_fin, cumsum, length_cumsumAux, List.length_map, hzlen]
  have hlen2 : (cumsum (vol.map FVal.fin)).length = vol.length := by
    rw [cumsum, length_cumsumAux, List.length_map]
  constructor
  · rw [vwap, List.length_zipWith, hlen1, hlen2, hlen, min_self]
  intro i hi
  have hAeq : atF (vwap (close.map FVal.fin) (vol.map FVal.fin)) i =
      FVal.div (FVal.fin ((List.zipWith (fun a b => a * b) close vol).take (i + 1)).sum)
        (FVal.fin ((vol.take (i + 1)).sum)) := by
    rw [vwap, atF_zipWith _ _ _ i (by rw [hlen1]; exact hi) (by rw [hlen2, hlen]; exact hi)]
    rw [zipWith_mul_map_fin, atF_cumsum_map_fin _ i (by rw [hzlen]; exact hi),
      atF_cumsum_map_fin vol i (by rw [hlen]; exact hi)]
  have hB0 : 0 ≤ (vol.take (i + 1)).sum :=
    List.sum_nonneg (fun x hx => hv x (List.take_subset (i + 1) vol hx))
  refine ⟨hAeq, ?_, ?_⟩
  · constructor
    · intro hnan
      by_contra hBne
      have hBpos : 0 < (vol.take (i + 1)).sum := lt_of_le_of_ne hB0 (Ne.symm hBne)
      rw [hAeq, FVal.div_fin_fin _ _ (ne_of_gt hBpos)] at hnan
      cases hnan
    · intro hB
      have hall0 : ∀ v ∈ vol.take (i + 1), v = 0 :=
        list_sum_zero_of_nonneg _ (fun x hx => hv x (List.take_subset (i + 1) vol hx)) hB
      have hA0 : ((List.zipWith (fun a b => a * b) close vol).take (i + 1)).sum = 0 := by
        rw [List.take_zipWith]
        exact sum_zipWith_mul_zero _ _ hall0
      rw [hAeq, hA0, hB, FVal.div_fin_zero_zero]
  · intro hBpos
    refine ⟨by rw [hAeq, FVal.div_fin_fin _ _ (ne_of_gt hBpos)], ?_, ?_⟩
    · intro M hM
      have hA_le : ((List.zipWith (fun a b => a * b) close vol).take (i + 1)).sum ≤
          M * (vol.take (i + 1)).sum := by
        rw [List.take_zipWith]
        apply sum_zipWith_mul_le M _ _
          (by simp [List.length_take]; omega)
          (fun x hx => hv x (List.take_subset (i + 1) vol hx))
          (mem_take_imp close (i + 1) (fun j hj1 hj2 => hM j (by omega)))
      rw [div_le_iff₀ hBpos]
      linarith
    · intro m hm
      have hA_ge : m * (vol.take (i + 1)).sum ≤
          ((List.zipWith (fun a b => a * b) close vol).take (i + 1)).sum := by
        rw [List.take_zipWith]
        apply sum_zipWith_mul_ge m _ _
          (by simp [List.length_take]; omega)
          (fun x hx => hv x (List.take_subset (i + 1) vol hx))
          (mem_take_imp close (i + 1) (fun j hj1 hj2 => hm j (by omega)))
      rw [le_div_iff₀ hBpos]
      linarith

/-- Witness for C8 at `close = [2, 4]`, `vol = [1, 1]`. -/
theorem vwap_cum_ratio_bounds_witness :
    (vwap (([2, 4] : List ℚ).map FVal.fin) (([1, 1] : List ℚ).map FVal.fin)).length = 2 ∧
    (∀ i, i < ([2, 4] : List ℚ).length →
      atF (vwap (([2, 4] : List ℚ).map FVal.fin) (([1, 1] : List ℚ).map FVal.fin)) i =
        FVal.div
          (FVal.fin ((List.zipWith (fun a b => a * b) ([2, 4] : List ℚ)
            ([1, 1] : List ℚ)).take (i + 1)).sum)
          (FVal.fin ((([1, 1] : List ℚ).take (i + 1)).sum)) ∧
      (atF (vwap (([2, 4] : List ℚ).map FVal.fin) (([1, 1] : List ℚ).map FVal.fin)) i
          = FVal.nan ↔ ((([1, 1] : List ℚ).take (i + 1)).sum = 0)) ∧
      (0 < (([1, 1] : List ℚ).take (i + 1)).sum →
        atF (vwap (([2, 4] : List ℚ).map FVal.fin) (([1, 1] : List ℚ).map FVal.fin)) i =
          FVal.fin (((List.zipWith (fun a b => a * b) ([2, 4] : List ℚ)
            ([1, 1] : List ℚ)).take (i + 1)).sum / ((([1, 1] : List ℚ).take (i + 1)).sum)) ∧
        (∀ M, (∀ j, j ≤ i → ([2, 4] : List ℚ).getD j 0 ≤ M) →
          ((List.zipWith (fun a b => a * b) ([2, 4] : List ℚ)
            ([1, 1] : List ℚ)).take (i + 1)).sum / ((([1, 1] : List ℚ).take (i + 1)).sum) ≤ M) ∧
        (∀ m, (∀ j, j ≤ i → m ≤ ([2, 4] : List ℚ).getD j 0) →
          m ≤ ((List.zipWith (fun a b => a * b) ([2, 4] : List ℚ)
            ([1, 1] : List ℚ)).take (i + 1)).sum / ((([1, 1] : List ℚ).take (i + 1)).sum)))) := by
  have h := vwap_cum_ratio_bounds [2, 4] [1, 1] (by simp)
    (by intro v hv; simp at hv; rcases hv with rfl | rfl <;> norm_num)
  simpa using h

/-! ## MACD and the indicator pipeline (claim C9) -/

/-- `macd(prices, fast, slow, signal)`: fast/slow EMAs, their difference, the
signal EMA of the difference, and the histogram. -/
def macd (prices : List FVal) (fast slow signal : ℕ) :
    List FVal × List FVal × List FVal :=
  let ema_fast := ema prices fast
  let ema_slow := ema prices slow
  let macd_line := List.zipWith FVal.sub ema_fast ema_slow
  let signal_line := ema macd_line signal
  let histogram := List.zipWith FVal.sub macd_line signal_line
  (macd_line, signal_line, histogram)

/-- Modelled from the spec: the pipeline's error taxonomy names an
`UnknownIndicatorError` for a requested indicator name the pipeline does not
recognize; no such dispatch exists in the source (its pipeline computes a
fixed set of columns), so the error type is taken from the spec. -/
inductive PipelineError where
  | unknownIndicator : String → PipelineError
deriving DecidableEq

/-- The output-column names the fixed pipeline (`__download_data` in
`download_data.py`) produces, in source order. -/
def knownIndicatorNames : List String :=
  ["EMA5", "EMA13", "EMA26", "EMA50", "EMA200", "BB_SMA", "BB_Upper", "BB_Lower",
   "MACD", "MACD_Signal", "MACD_Histo", "RSI", "Stoch_K", "Stoch_D",
   "ADX", "ADX_Plus_Di", "ADX_Minus_Di"]

/-- The column the fixed pipeline computes for each recognized name, with the
source's parameters (`ema` spans 5/13/26/50/200, bollinger 20/2,
macd 12/26/9, rsi 14, stochastic 14/3, adx 14). -/
def computeByName (high low close : List FVal) (nm : String) : List FVal :=
  if nm = "EMA5" then ema close 5
  else if nm = "EMA13" then ema close 13
  else if nm = "EMA26" then ema close 26
  else if nm = "EMA50" then ema close 50
  else if nm = "EMA200" then ema close 200
  else if nm = "BB_SMA" then (bollinger_bands close 20 2).1
  else if nm = "BB_Upper" then (bollinger_bands close 20 2).2.1
  else if nm = "BB_Lower" then (bollinger_bands close 20 2).2.2
  else if nm = "MACD" then (macd close 12 26 9).1
  else if nm = "MACD_Signal" then (macd close 12 26 9).2.1
  else if nm = "MACD_Histo" then (macd close 12 26 9).2.2
  else if nm = "RSI" then rsi close 14
  else if nm = "Stoch_K" then (stochasticCore high low close 14 3).1
  else if nm = "Stoch_D" then (stochasticCore high low close 14 3).2
  else if nm = "ADX" then (adxCore high low close 14).1
  else if nm = "ADX_Plus_Di" then (adxCore high low close 14).2.1
  else if nm = "ADX_Minus_Di" then (adxCore high low close 14).2.2
  else []

/-- Modelled from the spec: the IndicatorPipeline by-name request.  A
recognized name yields its computed column; an unrecognized name fails with
`UnknownIndicatorError`, computing nothing for that request. -/
def requestIndicator (high low close : List FVal) (nm : String) :
    Except PipelineError (List FVal) :=
  if nm ∈ knownIndicatorNames then Except.ok (computeByName high low close nm)
  else Except.error (PipelineError.unknownIndicator nm)

/-- C9 (spec-modelled): every unrecognized indicator name fails with
`UnknownIndicatorError` carrying that name (surfaced, nothing computed), and
every recognized name succeeds. -/
theorem pipeline_unknown_indicator (high low close : List FVal) (nm : String) :
    (nm ∉ knownIndicatorNames →
      requestIndicator high low close nm
        = Except.error (PipelineError.unknownIndicator nm)) ∧
    (nm ∈ knownIndicatorNames →
      ∃ s, requestIndicator high low close nm = Except.ok s) := by
  constructor
  · intro h
    rw [requestIndicator, if_neg h]
  · intro h
    exact ⟨computeByName high low close nm, by rw [requestIndicator, if_pos h]⟩

/-- Witness for C9 at the unrecognized name `"SUPERTREND"` and the recognized
name `"RSI"`. -/
theorem pipeline_unknown_indicator_witness :
    requestIndicator [] [] [] "SUPERTREND"
      = Except.error (PipelineError.unknownIndicator "SUPERTREND") ∧
    ∃ s, requestIndicator [] [] [] "RSI" = Except.ok s :=
  ⟨(pipeline_unknown_indicator [] [] [] "SUPERTREND").1 (by decide),
   (pipeline_unknown_indicator [] [] [] "RSI").2 (by decide)⟩

/-! ## Bollinger bands with window 1 (claim C10) -/

theorem take_drop_singleton (l : List ℚ) :
    ∀ i, i < l.length → (l.take (i + 1)).drop i = [l.getD i 0] := by
  induction l with
  | nil => intro i hi; simp at hi
  | cons x rest ih =>
      intro i hi
      cases i with
      | zero => simp
      | succ i' =>
          simp only [List.take_succ_cons, List.drop_succ_cons, List.getD_cons_succ]
          exact ih i' (by simpa using hi)

theorem windowSlice_one (qs : List ℚ) (i : ℕ) (hi : i < qs.length) :
    windowSlice (qs.map FVal.fin) 1 i = [FVal.fin (qs.getD i 0)] := by
  rw [windowSlice_map_fin]
  have : i + 1 - 1 = i := by omega
  rw [this, take_drop_singleton qs i hi]
  rfl

theorem stdAgg_one_singleton (q : ℚ) : stdAgg 1 [FVal.fin q] = FVal.nan := by
  rw [stdAgg]
  simp only [List.any_cons, List.any_nil, FVal.isNan, Bool.or_false, Bool.false_eq_true,
    if_false]
  have h1 : sumF [FVal.fin q] = FVal.fin q := by
    simp [sumF, FVal.add_fin_fin]
  rw [h1]
  have h2 : FVal.div (FVal.fin q) (FVal.fin ((1:ℕ):ℚ)) = FVal.fin q := by
    rw [FVal.div_fin_fin _ _ (by norm_num)]
    norm_num
  rw [h2]
  have h3 : FVal.sub (FVal.fin q) (FVal.fin q) = FVal.fin 0 := by
    rw [FVal.sub_fin_fin, sub_self]
  simp only [List.map_cons, List.map_nil, h3]
  have h4 : FVal.mul (FVal.fin 0) (FVal.fin 0) = FVal.fin 0 := by
    rw [FVal.mul_fin_fin, mul_zero]
  rw [h4]
  have h5 : sumF [FVal.fin 0] = FVal.fin 0 := by
    simp [sumF, FVal.add_fin_fin]
  rw [h5]
  have h6 : (((1:ℕ) - 1 : ℕ) : ℚ) = 0 := by norm_num
  rw [h6, FVal.div_fin_zero_zero]
  rfl

/-- C10: with `window = 1`, `bollinger_bands` returns an sma line equal to the
prices themselves at every position, but upper and lower bands that are NaN
everywhere: the rolling sample standard deviation (`ddof = 1`) is undefined
over a single observation. -/
theorem bollinger_window_one_bands_nan (prices : List ℚ) (num_std : ℕ) :
    ((bollinger_bands (prices.map FVal.fin) 1 num_std).1.length = prices.length ∧
     (bollinger_bands (prices.map FVal.fin) 1 num_std).2.1.length = prices.length ∧
     (bollinger_bands (prices.map FVal.fin) 1 num_std).2.2.length = prices.length) ∧
    (∀ i, i < prices.length →
      atF (bollinger_bands (prices.map FVal.fin) 1 num_std).1 i
          = FVal.fin (prices.getD i 0) ∧
      atF (bollinger_bands (prices.map FVal.fin) 1 num_std).2.1 i = FVal.nan ∧
      atF (bollinger_bands (prices.map FVal.fin) 1 num_std).2.2 i = FVal.nan) := by
  have hlen1 : (rollingMean 1 (prices.map FVal.fin)).length = prices.length := by
    rw [rollingMean, length_rollingOp, List.length_map]
  have hlen2 : (rollingStd 1 (prices.map FVal.fin)).length = prices.length := by
    rw [rollingStd, length_rollingOp, List.length_map]
  have hsma : ∀ i, i < prices.length →
      atF (rollingMean 1 (prices.map FVal.fin)) i = FVal.fin (prices.getD i 0) := by
    intro i hi
    rw [rollingMean, atF_rollingOp _ _ _ _ (by simpa using hi), if_neg (by omega),
      windowSlice_one prices i hi, meanAgg]
    simp only [List.any_cons, List.any_nil, FVal.isNan, Bool.or_false, Bool.false_eq_true,
      if_false]
    have h1 : sumF [FVal.fin (prices.getD i 0)] = FVal.fin (prices.getD i 0) := by
      simp [sumF, FVal.add_fin_fin]
    rw [h1, FVal.div_fin_fin _ _ (by norm_num : ((1:ℕ):ℚ) ≠ 0)]
    norm_num
  have hstd : ∀ i, i < prices.length →
      atF (rollingStd 1 (prices.map FVal.fin)) i = FVal.nan := by
    intro i hi
    rw [rollingStd, atF_rollingOp _ _ _ _ (by simpa using hi), if_neg (by omega),
      windowSlice_one prices i hi, stdAgg_one_singleton]
  refine ⟨⟨by simp [bollinger_bands, hlen1], by simp [bollinger_bands, hlen1, hlen2],
    by simp [bollinger_bands, hlen1, hlen2]⟩, ?_⟩
  intro i hi
  refine ⟨hsma i hi, ?_, ?_⟩
  · show atF (List.zipWith _ (rollingMean 1 (prices.map FVal.fin))
      (rollingStd 1 (prices.map FVal.fin))) i = FVal.nan
    rw [atF_zipWith _ _ _ i (by rw [hlen1]; exact hi) (by rw [hlen2]; exact hi),
      hstd i hi, FVal.mul_nan_right, FVal.add_nan_right]
  · show atF (List.zipWith _ (rollingMean 1 (prices.map FVal.fin))
      (rollingStd 1 (prices.map FVal.fin))) i = FVal.nan
    rw [atF_zipWith _ _ _ i (by rw [hlen1]; exact hi) (by rw [hlen2]; exact hi),
      hstd i hi, FVal.mul_nan_right, FVal.sub_nan_right]

/-- Witness for C10 at `prices = [3, 7]`, `num_std = 2`. -/
theorem bollinger_window_one_bands_nan_witness :
    ((bollinger_bands (([3, 7] : List ℚ).map FVal.fin) 1 2).1.length = 2 ∧
     (bollinger_bands (([3, 7] : List ℚ).map FVal.fin) 1 2).2.1.length = 2 ∧
     (bollinger_bands (([3, 7] : List ℚ).map FVal.fin) 1 2).2.2.length = 2) ∧
    (∀ i, i < ([3, 7] : List ℚ).length →
      atF (bollinger_bands (([3, 7] : List ℚ).map FVal.fin) 1 2).1 i
          = FVal.fin (([3, 7] : List ℚ).getD i 0) ∧
      atF (bollinger_bands (([3, 7] : List ℚ).map FVal.fin) 1 2).2.1 i = FVal.nan ∧
      atF (bollinger_bands (([3, 7] : List ℚ).map FVal.fin) 1 2).2.2 i = FVal.nan) := by
  have h := bollinger_window_one_bands_nan [3, 7] 2
  simpa using h
